import Mathlib

/-!
Verification development for the rkt image store (content-addressed blob/ref
store, tree store and distribution-identity subsystem).

The Go sources are shallowly embedded: Go byte strings become lists of
characters (one character per byte), maps and bolt buckets become association
lists, fallible functions return `Except`, and Go panics are modelled as
distinguished error values.  Hash functions (sha256/sha512) are abstract
parameters constrained only by their output size.
-/

/-- Go strings are byte strings; we model them as lists of characters, each
character standing for one byte. -/
abbrev Str := List Char

/-- Convert a Lean string literal to the byte-list model. -/
def toChars (s : String) : Str := s.data

deriving instance DecidableEq for Except

/-- Errors and panics surfaced by the embedded operations. -/
inductive Err where
  | wrongDigest
  | unknownDigest
  | tooShort
  | ambiguous
  | digestNotFound
  | blobNotFound
  | ioError
  | referenced
  | removeReferenced
  | staleData
  | bucketMissing
  | badKeyPanic
  | emptyValuePanic
  | missingEntryPanic
  | unmarshalError
  | unescapeError
  | nilDerefPanic
  | aciNotFound
  | pathExists
  | unsupportedScheme
  | malformedDistURI
  | wrongDistType
  | missingLabelEq
  | badACIdentifier
  | dupLabel
  | badAppString
  deriving DecidableEq, Repr

/-! ## Character classes and hex encoding (pkg/digest, net/url) -/

/-- Character class `[a-zA-Z0-9-_+.]` of the digest regular expression. -/
def isDigestNameChar (c : Char) : Bool :=
  c.isAlpha || c.isDigit || c == '-' || c == '_' || c == '+' || c == '.'

/-- Character class `[a-fA-F0-9]` of the digest regular expression. -/
def isHexDigitChar (c : Char) : Bool :=
  c.isDigit || (decide ('a' ≤ c) && decide (c ≤ 'f')) ||
    (decide ('A' ≤ c) && decide (c ≤ 'F'))

/-- Lowercase hex digit for a nibble, as printed by Go `%x`. -/
def hexLowerDigit (n : Nat) : Char :=
  if n < 10 then Char.ofNat (48 + n) else Char.ofNat (97 + (n - 10))

/-- Uppercase hex digit for a nibble, as used by Go percent-encoding. -/
def hexUpperDigit (n : Nat) : Char :=
  if n < 10 then Char.ofNat (48 + n) else Char.ofNat (65 + (n - 10))

/-- Lowercase hex encoding of one byte (two digits), as printed by Go `%x`. -/
def hexByteLower (b : Nat) : Str := [hexLowerDigit (b / 16 % 16), hexLowerDigit (b % 16)]

/-- Lowercase hex encoding of a byte slice, Go `fmt.Sprintf("%x", s)`. -/
def hexEncode (bs : List Nat) : Str := (bs.map hexByteLower).flatten

/-- Numeric value of a hex digit character, `none` for other characters. -/
def hexVal (c : Char) : Option Nat :=
  if c.isDigit then some (c.toNat - 48)
  else if decide ('a' ≤ c) && decide (c ≤ 'f') then some (c.toNat - 87)
  else if decide ('A' ≤ c) && decide (c ≤ 'F') then some (c.toNat - 55)
  else none

/-! ## Digest codec (pkg/digest/digest.go) -/

/-- The two supported hash algorithms. -/
inductive Algorithm where
  | sha256
  | sha512
  deriving DecidableEq, Repr

/-- Name string of an algorithm. -/
def algName : Algorithm → Str
  | .sha256 => toChars "sha256"
  | .sha512 => toChars "sha512"

/-- Raw hash output size in bytes (`hash.Size()`). -/
def hashSize : Algorithm → Nat
  | .sha256 => 32
  | .sha512 => 64

/-- Embeds `Algorithm.PrefixLen`, the length of the algorithm name. -/
def prefixLen (a : Algorithm) : Nat := (algName a).length

/-- Lookup in the `algorithms` map of pkg/digest. -/
def algorithmOfName (s : Str) : Option Algorithm :=
  if s = toChars "sha256" then some .sha256
  else if s = toChars "sha512" then some .sha512
  else none

/-- Embeds `Digester.Digest`: `fmt.Sprintf("%s-%x", algo, sum)` where `sum` is
the full raw hash output. -/
def digestStr (a : Algorithm) (sum : List Nat) : Str :=
  algName a ++ '-' :: hexEncode sum

/-- Embeds `strings.Replace(ds, ":", "-", 1)`. -/
def replaceFirstColon : Str → Str
  | [] => []
  | c :: cs => if c == ':' then '-' :: cs else c :: replaceFirstColon cs

/-- All characters of the segment `[i, j)` of `cs` satisfy `p`. -/
def segAll (p : Char → Bool) (cs : Str) (i j : Nat) : Bool :=
  ((cs.drop i).take (j - i)).all p

/-- Embeds `digestRegexp.MatchString(ds)` for the unanchored pattern
`[a-zA-Z0-9-_+.]+-[a-fA-F0-9]+`: some substring decomposes into a nonempty run
of name characters, a hyphen, and a nonempty run of hex characters. -/
def digestRegexpMatch (cs : Str) : Bool :=
  (List.range (cs.length + 1)).any fun i =>
    (List.range (cs.length + 1)).any fun p =>
      (List.range (cs.length + 1)).any fun k =>
        decide (i < p) && decide (p + 1 < k) && decide (k ≤ cs.length) &&
        segAll isDigestNameChar cs i p &&
        (cs.get? p == some '-') &&
        segAll isHexDigitChar cs (p + 1) k

/-- Propositional form of the unanchored substring match. -/
def SubMatch (cs : Str) : Prop :=
  ∃ i p k, i < p ∧ p + 1 < k ∧ k ≤ cs.length ∧
    segAll isDigestNameChar cs i p = true ∧ cs.get? p = some '-' ∧
    segAll isHexDigitChar cs (p + 1) k = true

/-- Embeds `ParseDigest` of pkg/digest/digest.go: replace the first colon with
a hyphen, test the (unanchored) digest regular expression, and require the
segment before the first hyphen to name a known algorithm. -/
def ParseDigest (ds : Str) : Except Err (Str × Algorithm) :=
  let ds := replaceFirstColon ds
  if digestRegexpMatch ds then
    match algorithmOfName (ds.takeWhile (fun c => c ≠ '-')) with
    | some a => .ok (ds, a)
    | none => .error .unknownDigest
  else .error .wrongDigest

/-- Modelled from the spec: whole-string match of the anchored regular
expression `^[A-Za-z0-9_+.-]+-[A-Fa-f0-9]+$` (the spec's validation step for
`ParseDigest`).  Used only to compare the spec's claim with the code. -/
def specAnchoredMatch (cs : Str) : Bool :=
  (List.range (cs.length + 1)).any fun p =>
    decide (0 < p) && decide (p + 1 < cs.length) &&
    segAll isDigestNameChar cs 0 p && (cs.get? p == some '-') &&
    segAll isHexDigitChar cs (p + 1) cs.length

/-! ## Go net/url query escaping and path.Base -/

/-- Characters left unescaped by Go `url.QueryEscape`: `[A-Za-z0-9-_.~]`. -/
def isEscUnreserved (c : Char) : Bool :=
  c.isAlpha || c.isDigit || c == '-' || c == '_' || c == '.' || c == '~'

/-- Escape a single byte as Go `url.QueryEscape` does: unreserved bytes pass
through, space becomes a plus, everything else becomes a percent escape. -/
def escChar (c : Char) : Str :=
  if isEscUnreserved c then [c]
  else if c == ' ' then ['+']
  else ['%', hexUpperDigit (c.toNat / 16 % 16), hexUpperDigit (c.toNat % 16)]

/-- Embeds Go `url.QueryEscape`. -/
def QueryEscape (s : Str) : Str := (s.map escChar).flatten

/-- Embeds Go `url.QueryUnescape`: percent escapes decode to the named byte, a
plus decodes to a space, malformed percent escapes are an error. -/
def QueryUnescape : Str → Except Err Str
  | [] => .ok []
  | c :: rest =>
    if c = '%' then
      match rest with
      | x :: y :: rest2 =>
        match hexVal x, hexVal y with
        | some a, some b => (QueryUnescape rest2).map (fun t => Char.ofNat (16 * a + b) :: t)
        | _, _ => .error .unescapeError
      | _ => .error .unescapeError
    else if c = '+' then (QueryUnescape rest).map (fun t => ' ' :: t)
    else (QueryUnescape rest).map (fun t => c :: t)

/-- Strip trailing slashes, first phase of Go `path.Base`. -/
def dropTrailingSlashes (cs : Str) : Str := (cs.reverse.dropWhile (fun c => c == '/')).reverse

/-- Everything after the final slash. -/
def lastSegment (cs : Str) : Str := (cs.reverse.takeWhile (fun c => c ≠ '/')).reverse

/-- Embeds Go `path.Base`. -/
def pathBase (cs : Str) : Str :=
  if cs = [] then toChars "."
  else
    let cs2 := dropTrailingSlashes cs
    if cs2 = [] then toChars "/"
    else lastSegment cs2

/-! ## Record types of the blob and ref store (store/casref/rwcasref) -/

/-- Embeds the `Ref` record of ref.go. -/
structure Ref where
  ID : Str
  Digest : Str
  deriving DecidableEq, Repr

/-- Embeds the `BlobInfo` record of blobinfo.go.  Times are abstract ticks. -/
structure BlobInfo where
  Digest : Str
  MediaType : Str
  Size : Nat
  ImportTime : Nat
  LastUsed : Nat
  Data : List (Str × List Nat)
  deriving DecidableEq, Repr

/-- Embeds the `Info` record of treestore/info.go. -/
structure Info where
  ID : Str
  ImageDigest : Str
  Checksum : Str
  Size : Nat
  deriving DecidableEq, Repr

/-- JSON values stored in a bolt bucket: a serialized record, or the nil value
used for secondary index entries. -/
inductive Val where
  | biv (bi : BlobInfo)
  | refv (r : Ref)
  | infov (i : Info)
  | nilv
  deriving DecidableEq, Repr

/-- A bolt bucket: association list from key to stored value. -/
abbrev Bucket := List (Str × Val)

/-- Keyed lookup in an association list (bolt `Get`, diskv read). -/
def kvGet {α : Type} (b : List (Str × α)) (k : Str) : Option α :=
  (b.find? (fun e => e.1 == k)).map (fun e => e.2)

/-- Keyed store in an association list (bolt `Put`, diskv `Import`): replace
the value under an existing key (bucket keys are unique), else append. -/
def kvPut {α : Type} : List (Str × α) → Str → α → List (Str × α)
  | [], k, v => [(k, v)]
  | e :: t, k, v => if e.1 = k then (k, v) :: t else e :: kvPut t k v

/-- Keyed removal from an association list (bolt `Delete`). -/
def kvDel {α : Type} (b : List (Str × α)) (k : Str) : List (Str × α) :=
  b.filter (fun e => e.1 ≠ k)

/-- Embeds `bucket.Get`. -/
def bGet (b : Bucket) (k : Str) : Option Val := kvGet b k

/-- Embeds `bucket.Put`. -/
def bPut (b : Bucket) (k : Str) (v : Val) : Bucket := kvPut b k v

/-- Embeds `bucket.Delete`. -/
def bDel (b : Bucket) (k : Str) : Bucket := kvDel b k

/-- Embeds a bolt cursor prefix scan (`Seek` then `Next` while the prefix
matches): all entries whose key starts with `pre`. -/
def scanPre (b : Bucket) (pre : Str) : Bucket := b.filter (fun e => pre.isPrefixOf e.1)

/-! ## Key builders (blobinfo.go / ref.go).  `checkKeyPart` panics become
distinguished errors. -/

/-- Embeds `blobInfoDigestKey` with its `checkKeyPart` panic. -/
def blobInfoDigestKey (digest : Str) : Except Err Str :=
  if digest.contains '/' then .error .badKeyPanic
  else .ok (toChars "digest/" ++ digest)

/-- Embeds `blobInfoMediaTypeDigestKey` with its panics. -/
def blobInfoMediaTypeDigestKey (mediaType digest : Str) : Except Err Str :=
  if mediaType.contains '/' || digest.contains '/' then .error .badKeyPanic
  else if mediaType = [] then .error .emptyValuePanic
  else .ok (toChars "mediatype/" ++ mediaType ++ '/' :: digest)

/-- Embeds `refIDKey`; the id is stored raw in the primary key. -/
def refIDKey (id : Str) : Str := toChars "id/" ++ id

/-- Embeds `refDigestIDKey`; the id is percent-encoded in the secondary key. -/
def refDigestIDKey (digest id : Str) : Except Err Str :=
  if digest.contains '/' then .error .badKeyPanic
  else if digest = [] then .error .emptyValuePanic
  else .ok (toChars "digest/" ++ digest ++ '/' :: QueryEscape id)

/-! ## Transaction-level helpers (blobinfo.go / ref.go) -/

/-- Embeds `getBlobInfo`. -/
def getBlobInfo (b : Bucket) (digest : Str) : Except Err (Option BlobInfo) := do
  let k ← blobInfoDigestKey digest
  match bGet b k with
  | none => .ok none
  | some (.biv bi) => .ok (some bi)
  | some _ => .error .unmarshalError

/-- Embeds `writeBlobInfo`: primary row plus mediatype secondary index entry. -/
def writeBlobInfo (b : Bucket) (bi : BlobInfo) : Except Err Bucket := do
  let k ← blobInfoDigestKey bi.Digest
  let k2 ← blobInfoMediaTypeDigestKey bi.MediaType bi.Digest
  .ok (bPut (bPut b k (.biv bi)) k2 .nilv)

/-- Embeds `getBlobInfosWithDigestPrefix`: prefix scan on the primary index,
unmarshalling every matched value. -/
def getBlobInfosWithDigestPre (b : Bucket) (digestPre : Str) : Except Err (List BlobInfo) := do
  let pre ← blobInfoDigestKey digestPre
  (scanPre b pre).mapM (fun e =>
    match e.2 with
    | .biv bi => .ok bi
    | _ => .error Err.unmarshalError)

/-- Embeds `removeBlobInfo`: delete primary row and mediatype index entry. -/
def removeBlobInfo (b : Bucket) (digest : Str) : Except Err Bucket := do
  match ← getBlobInfo b digest with
  | none => .ok b
  | some bi => do
    let k ← blobInfoDigestKey digest
    let k2 ← blobInfoMediaTypeDigestKey bi.MediaType digest
    .ok (bDel (bDel b k) k2)

/-- Embeds `writeRef`: put the primary row and the digest secondary index
entry.  Note that no stale secondary entry for a previously stored digest is
deleted. -/
def writeRef (b : Bucket) (r : Ref) : Except Err Bucket := do
  let k2 ← refDigestIDKey r.Digest r.ID
  .ok (bPut (bPut b (refIDKey r.ID) (.refv r)) k2 .nilv)

/-- Embeds `getRef`. -/
def getRef (b : Bucket) (id : Str) : Except Err (Option Ref) :=
  match bGet b (refIDKey id) with
  | none => .ok none
  | some (.refv r) => .ok (some r)
  | some _ => .error .unmarshalError

/-- Embeds `getAllRefs`: prefix scan on the primary index. -/
def getAllRefs (b : Bucket) : Except Err (List Ref) :=
  (scanPre b (refIDKey [])).mapM (fun e =>
    match e.2 with
    | .refv r => .ok r
    | _ => .error Err.unmarshalError)

/-- Embeds `getRefsByDigest`: prefix scan on the digest secondary index,
recovering each id with `path.Base` and `url.QueryUnescape` and loading the
primary row; a missing primary row panics. -/
def getRefsByDigest (b : Bucket) (digest : Str) : Except Err (List Ref) := do
  let pre ← refDigestIDKey digest []
  (scanPre b pre).mapM (fun e => do
    let id ← QueryUnescape (pathBase e.1)
    match ← getRef b id with
    | none => .error Err.missingEntryPanic
    | some r => .ok r)

/-- Embeds `removeRef`: delete the primary row and the digest index entry of
the currently stored digest; removing an absent ref is a no-op. -/
def removeRef (b : Bucket) (id : Str) : Except Err Bucket := do
  match ← getRef b id with
  | none => .ok b
  | some r => do
    let k2 ← refDigestIDKey r.Digest id
    .ok (bDel (bDel b (refIDKey id)) k2)

/-! ## Store state and operations (store/casref/rwcasref/store.go).
Per-digest file locks only serialize concurrent access and are not modelled;
operations execute sequentially.  Each bolt transaction is modelled atomically:
on an inner error the bucket is left unchanged (rollback). -/

/-- State of one rwcasref store: the blobinfo bucket of the blob DB, the ref
bucket of the ref DB, and the diskv-backed blob file store.  The blobdata
bucket is never created by `initBlobDB`, so it is absent. -/
structure CasState where
  blobInfoB : Bucket
  refB : Bucket
  diskv : List (Str × List Nat)
  deriving DecidableEq, Repr

/-- Read a blob file from the diskv store. -/
def dkvGet (d : List (Str × List Nat)) (k : Str) : Option (List Nat) := kvGet d k

/-- Embeds `diskv.Import` (with move semantics): write the file under the key. -/
def dkvPut (d : List (Str × List Nat)) (k : Str) (v : List Nat) : List (Str × List Nat) :=
  kvPut d k v

/-- Embeds `diskv.Erase`: removing an absent file is an error. -/
def dkvErase (d : List (Str × List Nat)) (k : Str) : Except Err (List (Str × List Nat)) :=
  if d.any (fun e => e.1 == k) then .ok (kvDel d k) else .error .ioError

/-- Embeds `Store.ResolveDigest`: parse, reject digests shorter than the
algorithm name plus `-aa`, then resolve by prefix scan on the primary index. -/
def ResolveDigest (s : CasState) (inDigest : Str) : Except Err Str := do
  let (digest, a) ← ParseDigest inDigest
  if digest.length < prefixLen a + 3 then .error .tooShort
  else do
    let bis ← getBlobInfosWithDigestPre s.blobInfoB digest
    match bis with
    | [] => .error .digestNotFound
    | [bi] => .ok bi.Digest
    | _ => .error .ambiguous

/-- Embeds `Store.ReadBlob`: resolve, check the blob info row, then stream the
blob file. -/
def ReadBlob (s : CasState) (inDigest : Str) : Except Err (List Nat) := do
  let digest ← ResolveDigest s inDigest
  match ← getBlobInfo s.blobInfoB digest with
  | none => .error .blobNotFound
  | some _ =>
    match dkvGet s.diskv digest with
    | none => .error .ioError
    | some bs => .ok bs

/-- Embeds `Store.HasBlob`. -/
def HasBlob (s : CasState) (digest : Str) : Except Err Bool :=
  (getBlobInfo s.blobInfoB digest).map (fun o => o.isSome)

/-- Embeds `Store.WriteBlob`: tee the stream through the digester into the
diskv store under the final digest, then write the blob info (and any extra
blob data) in one transaction.  The blobdata bucket was never created, so a
nonempty `blobData` map aborts the transaction; the imported file survives
because the import is not transactional. -/
def WriteBlob (hash : Algorithm → List Nat → List Nat) (s : CasState) (bs : List Nat)
    (mediaType : Str) (blobData : List (Str × List Nat)) (a : Algorithm) (now : Nat) :
    Except Err Str × CasState :=
  let digest := digestStr a (hash a bs)
  let dkv2 := dkvPut s.diskv digest bs
  let tx : Except Err Bucket := do
    let bi : BlobInfo := { Digest := digest, MediaType := mediaType, Size := bs.length,
                           ImportTime := now, LastUsed := now, Data := [] }
    let b1 ← writeBlobInfo s.blobInfoB bi
    let b2 ← if blobData.isEmpty then pure b1 else Except.error Err.bucketMissing
    writeBlobInfo b2 bi
  match tx with
  | .ok b2 => (.ok digest, { s with blobInfoB := b2, diskv := dkv2 })
  | .error e => (.error e, { s with diskv := dkv2 })

/-- Embeds `Store.GetRef`. -/
def GetRef (s : CasState) (id : Str) : Except Err (Option Ref) :=
  getRef s.refB id

/-- Embeds `Store.GetAllRefs`. -/
def GetAllRefs (s : CasState) : Except Err (List Ref) :=
  getAllRefs s.refB

/-- The by-digest ref lookup exposed at transaction level (`getRefsByDigest`),
run against the store's ref bucket as `Store.RemoveBlob` does. -/
def GetRefsByDigest (s : CasState) (digest : Str) : Except Err (List Ref) :=
  getRefsByDigest s.refB digest

/-- Embeds `Store.SetRef`: resolve the digest, require the blob to exist, then
write the ref row and its secondary index entry. -/
def SetRef (s : CasState) (id : Str) (inDigest : Str) : Except Err Unit × CasState :=
  match ResolveDigest s inDigest with
  | .error e => (.error e, s)
  | .ok digest =>
    match HasBlob s digest with
    | .error e => (.error e, s)
    | .ok false => (.error .blobNotFound, s)
    | .ok true =>
      match writeRef s.refB { ID := id, Digest := digest } with
      | .error e => (.error e, s)
      | .ok b2 => (.ok (), { s with refB := b2 })

/-- Embeds `Store.RemoveRef`. -/
def RemoveRef (s : CasState) (id : Str) : Except Err Unit × CasState :=
  match removeRef s.refB id with
  | .error e => (.error e, s)
  | .ok b2 => (.ok (), { s with refB := b2 })

/-- Embeds `Store.RemoveBlob`: resolve; in one ref-DB transaction collect the
referring refs and, with `force`, remove them; after that transaction the
still-populated local `refs` slice is tested again and a nonempty slice is an
error; otherwise remove the blob info row and finally erase the blob file,
reporting `StaleData` if the erase fails. -/
def RemoveBlob (s : CasState) (inDigest : Str) (force : Bool) : Except Err Unit × CasState :=
  match ResolveDigest s inDigest with
  | .error e => (.error e, s)
  | .ok digest =>
    let tx1 : Except Err (List Ref × Bucket) := do
      let refs ← getRefsByDigest s.refB digest
      if !refs.isEmpty && !force then .error .referenced
      else do
        let b2 ← if !refs.isEmpty && force then
            refs.foldlM (fun b r => removeRef b r.ID) s.refB
          else pure s.refB
        .ok (refs, b2)
    match tx1 with
    | .error e => (.error e, s)
    | .ok (refs, refB2) =>
      let s1 := { s with refB := refB2 }
      if refs.length ≠ 0 then (.error .removeReferenced, s1)
      else
        let tx2 : Except Err Bucket := do
          match ← getBlobInfo s1.blobInfoB digest with
          | none => .error .blobNotFound
          | some _ => removeBlobInfo s1.blobInfoB digest
        match tx2 with
        | .error e => (.error e, s1)
        | .ok bb2 =>
          let s2 := { s1 with blobInfoB := bb2 }
          match dkvErase s2.diskv digest with
          | .error _ => (.error .staleData, s2)
          | .ok dkv2 => (.ok (), { s2 with diskv := dkv2 })

/-! ## WriteBlob / ReadBlob roundtrip -/

/-- Well-formed blobinfo bucket: keys are unique and every key in the primary
digest area names a full digest of one of the two algorithms.  `WriteBlob` is
the only writer of this bucket and maintains this shape. -/
def WFBlobBucket (b : Bucket) : Prop :=
  (b.map Prod.fst).Nodup ∧
  ∀ e ∈ b, (toChars "digest/").isPrefixOf e.1 = true →
    ∃ a hx, e.1 = toChars "digest/" ++ (algName a ++ '-' :: hx) ∧ hx.length = 2 * hashSize a

/-- Fixed-output abstract hash used to instantiate abstract-hash theorems. -/
def constHash : Algorithm → List Nat → List Nat := fun a _ => List.replicate (hashSize a) 7

/-- Concrete empty store. -/
def emptyCas : CasState := ⟨[], [], []⟩

/-! ## Concrete stores used by the code-bug and counterexample theorems -/

/-- A full sha256 digest string (64 hex characters). -/
def dA : Str := toChars "sha256-" ++ List.replicate 64 'a'

/-- A second full sha256 digest string. -/
def dB : Str := toChars "sha256-" ++ List.replicate 64 'b'

def biA : BlobInfo := ⟨dA, toChars "aci", 5, 0, 0, []⟩

def biB : BlobInfo := ⟨dB, toChars "aci", 3, 0, 0, []⟩

/-- A store holding two blobs and no refs. -/
def sAB : CasState :=
  ⟨[(toChars "digest/" ++ dA, .biv biA), (toChars "mediatype/aci/" ++ dA, .nilv),
    (toChars "digest/" ++ dB, .biv biB), (toChars "mediatype/aci/" ++ dB, .nilv)],
   [], [(dA, [104, 101, 108, 108, 111]), (dB, [1, 2, 3])]⟩

def refIdA : Str := toChars "cimd:appc:v=0:ex.com/a"

/-- The store after giving blob dA one ref. -/
def sRef1 : CasState := (SetRef sAB refIdA dA).2

def sC2a : CasState := (SetRef sAB (toChars "a") dA).2

def sC2b : CasState := (SetRef sC2a (toChars "a") dB).2

/-! ## Tree store (unnamed part: Store.Render / Store.IsRendered, plus
treestore/info.go).  Rendering itself (ACI extraction) is abstracted into the
checksum and size functions; the rendered directories on disk are modelled as
a list of tree ids.  Non-transactional effects of aborted operations are not
modelled; the theorems below exercise only completed operations. -/

/-- State of the tree store: the info bucket of its DB and the rendered tree
directories on disk. -/
structure TsState where
  infoB : Bucket
  dirs : List Str
  deriving DecidableEq, Repr

/-- Embeds `infoIDKey` with its `checkInfoKey` panic. -/
def infoIDKey (id : Str) : Except Err Str :=
  if id.contains '/' then .error .badKeyPanic
  else .ok (toChars "id/" ++ id)

/-- Embeds `infoImageKey` with its panics. -/
def infoImageKey (image id : Str) : Except Err Str :=
  if image.contains '/' || id.contains '/' then .error .badKeyPanic
  else if image = [] then .error .emptyValuePanic
  else .ok (toChars "image/" ++ image ++ '/' :: id)

/-- Embeds `getInfo` of treestore/info.go. -/
def getInfo (b : Bucket) (id : Str) : Except Err (Option Info) := do
  let k ← infoIDKey id
  match bGet b k with
  | none => .ok none
  | some (.infov i) => .ok (some i)
  | some _ => .error .unmarshalError

/-- Embeds `writeInfo`: primary row plus image-digest secondary index entry. -/
def writeInfo (b : Bucket) (i : Info) : Except Err Bucket := do
  let k ← infoIDKey i.ID
  let k2 ← infoImageKey i.ImageDigest i.ID
  .ok (bPut (bPut b k (.infov i)) k2 .nilv)

/-- Embeds `removeInfo`. -/
def removeInfo (b : Bucket) (id : Str) : Except Err Bucket := do
  match ← getInfo b id with
  | none => .ok b
  | some i => do
    let k ← infoIDKey id
    let k2 ← infoImageKey i.ImageDigest id
    .ok (bDel (bDel b k) k2)

/-- Embeds `Store.IsRendered`: it consults only the DB info row; the on-disk
directory is not checked. -/
def IsRendered (st : TsState) (id : Str) : Except Err Bool :=
  (getInfo st.infoB id).map (fun o => o.isSome)

/-- Embeds the private `remove` helper: when the tree directory does not
exist there is nothing to do (the info row, if any, is left in place);
otherwise the info row is removed in one transaction and then the directory. -/
def tsRemove (st : TsState) (id : Str) : Except Err TsState :=
  if id ∈ st.dirs then do
    let b2 ← removeInfo st.infoB id
    .ok ⟨b2, st.dirs.filter (fun x => decide (x ≠ id))⟩
  else .ok st

/-- Embeds the private `render` helper over the abstract rendering backend:
it fails when the tree path already exists, otherwise materializes the
directory, computes checksum and size, and writes the info row. -/
def tsRender (chk : Str → Str) (size : Str → Nat) (st : TsState) (id digest : Str) :
    Except Err TsState :=
  if id ∈ st.dirs then .error .pathExists
  else do
    let b2 ← writeInfo st.infoB ⟨id, digest, chk id, size id⟩
    .ok ⟨b2, id :: st.dirs⟩

/-- Embeds `Store.Render` past digest resolution, with the dependency-based
`calculateID` abstracted: return the id without work when not rebuilding and
IsRendered reports true, otherwise remove leftovers and render. -/
def Render (calcID : Str → Str) (chk : Str → Str) (size : Str → Nat)
    (st : TsState) (digest : Str) (rebuild : Bool) : Except Err (Str × TsState) := do
  let id := calcID digest
  let rendered ← if rebuild then (pure false : Except Err Bool) else IsRendered st id
  if rendered then .ok (id, st)
  else do
    let st1 ← tsRemove st id
    let st2 ← tsRender chk size st1 id digest
    .ok (id, st2)

def tsInfo0 : Info := ⟨toChars "x", dA, toChars "c", 1⟩

def tsSt0 : TsState := ⟨[(toChars "id/x", .infov tsInfo0),
  (toChars "image/" ++ dA ++ '/' :: toChars "x", .nilv)], []⟩

/-! ## Bytewise string ordering (Go sort.Strings) -/

/-- Bytewise less-or-equal on byte strings, the order used by Go
`sort.Strings`. -/
def strLe : Str → Str → Bool
  | [], _ => true
  | _ :: _, [] => false
  | a :: as, b :: bs => if a < b then true else if b < a then false else strLe as bs

/-- Propositional form of `strLe`. -/
def SLe (a b : Str) : Prop := strLe a b = true

instance : DecidableRel SLe := fun a b => by unfold SLe; infer_instance

instance : IsTotal Str SLe :=
  ⟨fun a b => by
    show strLe a b = true ∨ strLe b a = true
    induction a generalizing b with
    | nil => left; rfl
    | cons x as ih =>
      cases b with
      | nil => right; rfl
      | cons y bs =>
        rcases lt_trichotomy x y with h | h | h
        · left; simp [strLe, h]
        · subst h
          rcases ih bs with h2 | h2
          · left; simp [strLe, lt_irrefl, h2]
          · right; simp [strLe, lt_irrefl, h2]
        · right; simp [strLe, h]⟩

instance : IsTrans Str SLe :=
  ⟨fun a b c h1 h2 => by
    show strLe a c = true
    induction a generalizing b c with
    | nil => rfl
    | cons x as ih =>
      cases b with
      | nil => simp [SLe, strLe] at h1
      | cons y bs =>
        cases c with
        | nil => simp [SLe, strLe] at h2
        | cons z cs =>
          simp only [SLe, strLe] at h1 h2 ⊢
          rcases lt_trichotomy x y with hxy | hxy | hxy
          · rcases lt_trichotomy y z with hyz | hyz | hyz
            · simp [lt_trans hxy hyz]
            · subst hyz; simp [hxy]
            · simp [hyz, not_lt_of_gt hyz, lt_irrefl] at h2
          · subst hxy
            rcases lt_trichotomy x z with hyz | hyz | hyz
            · simp [hyz]
            · subst hyz
              simp only [lt_irrefl, if_false] at h1 h2 ⊢
              exact ih bs cs h1 h2
            · simp [hyz, not_lt_of_gt hyz, lt_irrefl] at h2
          · simp [hxy, not_lt_of_gt hxy, lt_irrefl] at h1⟩

instance : IsAntisymm Str SLe :=
  ⟨fun a b h1 h2 => by
    induction a generalizing b with
    | nil =>
      cases b with
      | nil => rfl
      | cons y bs => simp [SLe, strLe] at h2
    | cons x as ih =>
      cases b with
      | nil => simp [SLe, strLe] at h1
      | cons y bs =>
        simp only [SLe, strLe] at h1 h2
        rcases lt_trichotomy x y with hxy | hxy | hxy
        · simp [hxy, not_lt_of_gt hxy, lt_irrefl] at h2
        · subst hxy
          simp only [lt_irrefl, if_false] at h1 h2
          rw [ih bs h1 h2]
        · simp [hxy, not_lt_of_gt hxy, lt_irrefl] at h1⟩

/-- Embeds Go `sort.Strings`: bytewise ascending sort. -/
def sortStrings (l : List Str) : List Str := l.insertionSort SLe

/-! ## Association lookup as a Go map read -/

/-- Read of a Go string map modelled as an association list (total, empty
string for missing keys, as Go map indexing yields the zero value). -/
def lookupD (l : List (Str × Str)) (k : Str) : Str :=
  match l.find? (fun e => e.1 == k) with
  | some e => e.2
  | none => []

/-! ## Tree checksum (store/treestore/checksum.go) -/

/-- The tar.Header fields as delivered to the checksum writer, including the
fields that the normalized record drops. -/
structure TarHeader where
  name : Str
  mode : Nat
  uid : Nat
  gid : Nat
  size : Nat
  typeflag : Nat
  linkname : Str
  devmajor : Nat
  devminor : Nat
  xattrs : List (Str × Str)
  uname : Str
  gname : Str
  modTime : Nat
  accessTime : Nat
  changeTime : Nat
  deriving DecidableEq, Repr

/-- Embeds the normalized `fileInfo` record of checksum.go. -/
structure FileInfoRec where
  name : Str
  mode : Nat
  uid : Nat
  gid : Nat
  size : Nat
  typeflag : Nat
  linkname : Str
  devmajor : Nat
  devminor : Nat
  xattrs : List (Str × Str)
  deriving DecidableEq, Repr

/-- Embeds `fileInfoFromHeader`: copy the retained fields, drop user and group
names and all timestamps, and emit the xattrs sorted by name. -/
def fileInfoFromHeader (h : TarHeader) : FileInfoRec :=
  { name := h.name, mode := h.mode, uid := h.uid, gid := h.gid, size := h.size,
    typeflag := h.typeflag, linkname := h.linkname, devmajor := h.devmajor,
    devminor := h.devminor,
    xattrs := (sortStrings (h.xattrs.map Prod.fst)).map (fun k => (k, lookupD h.xattrs k)) }

/-- Opening brace character (written by code point to keep it out of string
literals). -/
def lbrace : Char := Char.ofNat 123

/-- Closing brace character. -/
def rbrace : Char := Char.ofNat 125

/-- Four lowercase hex digits, as in Go json \u escapes. -/
def hex4 (n : Nat) : Str :=
  [hexLowerDigit (n / 4096 % 16), hexLowerDigit (n / 256 % 16),
   hexLowerDigit (n / 16 % 16), hexLowerDigit (n % 16)]

/-- Go encoding/json escaping of one string character (HTML escaping on, as in
the default Marshal used by checksum.go). -/
def jsonEscChar (c : Char) : Str :=
  if c = '"' then ['\\', '"']
  else if c = '\\' then ['\\', '\\']
  else if c = '\n' then ['\\', 'n']
  else if c = '\r' then ['\\', 'r']
  else if c = '\t' then ['\\', 't']
  else if c = '<' ∨ c = '>' ∨ c = '&' then '\\' :: 'u' :: hex4 c.toNat
  else if c.toNat < 32 then '\\' :: 'u' :: hex4 c.toNat
  else [c]

/-- Go json string literal. -/
def jsonStr (s : Str) : Str := '"' :: (s.map jsonEscChar).flatten ++ ['"']

/-- Go decimal printing of a non-negative integer (strconv/json number). -/
def natDec (n : Nat) : Str :=
  if n = 0 then ['0'] else ((Nat.digits 10 n).reverse.map (fun d => Char.ofNat (48 + d)))

/-- Join with a separator character. -/
def joinSep (sep : Char) : List Str → Str
  | [] => []
  | h :: t => h ++ (t.map (fun x => sep :: x)).flatten

/-- Go json encoding of one xattr record. -/
def jsonXattr (x : Str × Str) : Str :=
  lbrace :: (jsonStr (toChars "Name") ++ ':' :: jsonStr x.1 ++
    ',' :: jsonStr (toChars "Value") ++ ':' :: jsonStr x.2) ++ [rbrace]

/-- Go json encoding of the xattr slice. -/
def jsonXattrs (l : List (Str × Str)) : Str :=
  '[' :: joinSep ',' (l.map jsonXattr) ++ [']']

/-- The json output of the fileInfo record before the Mode number. -/
def jsonFileInfoPre (fi : FileInfoRec) : Str :=
  lbrace :: (jsonStr (toChars "Name") ++ ':' :: jsonStr fi.name ++
    ',' :: jsonStr (toChars "Mode") ++ [':'])

/-- The json output of the fileInfo record after the Mode number. -/
def jsonFileInfoPost (fi : FileInfoRec) : Str :=
  ',' :: jsonStr (toChars "Uid") ++ ':' :: natDec fi.uid ++
  ',' :: jsonStr (toChars "Gid") ++ ':' :: natDec fi.gid ++
  ',' :: jsonStr (toChars "Size") ++ ':' :: natDec fi.size ++
  ',' :: jsonStr (toChars "Typeflag") ++ ':' :: natDec fi.typeflag ++
  ',' :: jsonStr (toChars "Linkname") ++ ':' :: jsonStr fi.linkname ++
  ',' :: jsonStr (toChars "Devmajor") ++ ':' :: natDec fi.devmajor ++
  ',' :: jsonStr (toChars "Devminor") ++ ':' :: natDec fi.devminor ++
  ',' :: jsonStr (toChars "Xattrs") ++ ':' :: jsonXattrs fi.xattrs ++ [rbrace]

/-- Embeds `json.Marshal(fileInfoFromHeader(hdr))`: fields in struct order. -/
def jsonFileInfo (fi : FileInfoRec) : Str :=
  jsonFileInfoPre fi ++ natDec fi.mode ++ jsonFileInfoPost fi

/-- One walked entry as handed to `AddFile`: the header, plus the file
contents for regular (non-hardlink) files. -/
structure WalkEntry where
  hdr : TarHeader
  contents : Option Str
  deriving DecidableEq, Repr

/-- Embeds `imageHashWriter.AddFile`: the bytes this entry feeds to the hash,
the json-encoded normalized header followed by the contents when present. -/
def addFileBytes (e : WalkEntry) : Str :=
  jsonFileInfo (fileInfoFromHeader e.hdr) ++ (match e.contents with
    | some c => c
    | none => [])

/-- The full byte stream fed to the sha256 over a walked tree. -/
def checksumInput (es : List WalkEntry) : Str := (es.map addFileBytes).flatten

/-- Embeds `Store.checksum` and `hashString` over the abstract hash: the
sha256 prefix plus lowercase hex of the hash of the walked stream. -/
def treeChecksum (hash : Str → List Nat) (es : List WalkEntry) : Str :=
  toChars "sha256-" ++ hexEncode (hash (checksumInput es))

/-- One entry changed only in ways the claim says are irrelevant: equal in
every retained field, xattrs permuted (with unique names), same contents;
user/group names and the three timestamps are unconstrained. -/
def entryRel (e e2 : WalkEntry) : Prop :=
  e2.hdr.name = e.hdr.name ∧ e2.hdr.mode = e.hdr.mode ∧ e2.hdr.uid = e.hdr.uid ∧
  e2.hdr.gid = e.hdr.gid ∧ e2.hdr.size = e.hdr.size ∧
  e2.hdr.typeflag = e.hdr.typeflag ∧ e2.hdr.linkname = e.hdr.linkname ∧
  e2.hdr.devmajor = e.hdr.devmajor ∧ e2.hdr.devminor = e.hdr.devminor ∧
  List.Perm e2.hdr.xattrs e.hdr.xattrs ∧ (e.hdr.xattrs.map Prod.fst).Nodup ∧
  e2.contents = e.contents

/-- Injective byte expansion of a byte string, used as an ideal hash when
instantiating the abstract-hash theorems. -/
def byteEncode (s : Str) : List Nat :=
  (s.map (fun c => [c.toNat / 65536, c.toNat / 256 % 256, c.toNat % 256])).flatten

def e0w : WalkEntry :=
  ⟨⟨toChars "f", 420, 0, 0, 5, 48, [], 0, 0, [(toChars "a", toChars "1"),
    (toChars "b", toChars "2")], toChars "root", toChars "root", 100, 100, 100⟩,
   some (toChars "hello")⟩

/-- The same entry with different timestamps, different user and group names,
and the xattrs listed in the other order. -/
def e0wr : WalkEntry :=
  ⟨⟨toChars "f", 420, 0, 0, 5, 48, [], 0, 0, [(toChars "b", toChars "2"),
    (toChars "a", toChars "1")], toChars "other", toChars "wheel", 999, 998, 997⟩,
   some (toChars "hello")⟩

/-- Well-formed ref bucket: keys are unique; every `id/` row stores the ref
named by its key; every `digest/` index entry ends, after the last slash, in
the percent-encoding of a nonempty byte id whose primary row exists. -/
def WFRefBucket (b : Bucket) : Prop :=
  (b.map Prod.fst).Nodup ∧
  ∀ e ∈ b,
    ((toChars "id/").isPrefixOf e.1 = true →
      ∃ r : Ref, e.2 = Val.refv r ∧ e.1 = refIDKey r.ID) ∧
    ((toChars "digest/").isPrefixOf e.1 = true →
      ∃ rid : Str, rid ≠ [] ∧ (∀ c ∈ rid, c.toNat < 256) ∧
        pathBase e.1 = QueryEscape rid ∧
        (∃ r2 : Ref, getRef b rid = .ok (some r2)))

/-! ## URL model for cimd distribution URIs (net/url, distribution) -/

/-- A parsed opaque-form URL as used by the cimd distribution URIs:
scheme, opaque part, raw query.  Hierarchical parts (authority, path) never
arise for cimd URIs and are not modelled. -/
structure URLO where
  scheme : Str
  opq : Str
  rawQuery : Str
  deriving DecidableEq, Repr

/-- Go `url.URL.String()` for opaque URLs: scheme, colon, opaque part, and
the raw query after a question mark when nonempty. -/
def urlString (u : URLO) : Str :=
  u.scheme ++ ':' :: u.opq ++ (if u.rawQuery = [] then [] else '?' :: u.rawQuery)

/-- Embeds `Distribution.ComparableURIString`, which returns `u.String()`. -/
def ComparableURIString (u : URLO) : Str := urlString u

/-- Split a string at the first occurrence of a separator; `none` when the
separator does not occur. -/
def splitAtFirst (sep : Char) : Str → Str × Option Str
  | [] => ([], none)
  | c :: rest =>
    if c = sep then ([], some rest)
    else
      let p := splitAtFirst sep rest
      (c :: p.1, p.2)

/-- Embeds Go `url.Parse` for the opaque URIs handled by the distribution
package: the scheme stands before the first colon and the raw query after the
first question mark of the remainder.  Strings without a colon parse to an
empty scheme (and fail the cimd scheme check downstream). -/
def urlParse (s : Str) : URLO :=
  match splitAtFirst ':' s with
  | (_, none) => ⟨[], [], []⟩
  | (sch, some rest) =>
    match splitAtFirst '?' rest with
    | (op, none) => ⟨sch, op, []⟩
    | (op, some rq) => ⟨sch, op, rq⟩

/-- Query piece separators of Go `url.ParseQuery`: ampersand and semicolon. -/
def isQuerySep (c : Char) : Bool := c == '&' || c == ';'

/-- Split on every character matched by `isSep` (Go `strings.Split`
generalized to a class of separator characters). -/
def splitSepP (isSep : Char → Bool) : Str → List Str
  | [] => [[]]
  | c :: rest =>
    if isSep c then [] :: splitSepP isSep rest
    else
      match splitSepP isSep rest with
      | t :: ts => (c :: t) :: ts
      | [] => [[c]]

/-- One piece of a query string: empty pieces are skipped, the piece splits
at the first equals sign, and both sides are query-unescaped, a failed
unescape dropping the piece (Go `url.ParseQuery`). -/
def parsePiece (piece : Str) : Option (Str × Str) :=
  if piece = [] then none
  else
    let p := splitAtFirst '=' piece
    match QueryUnescape p.1, QueryUnescape (p.2.getD []) with
    | .ok k, .ok v => some (k, v)
    | _, _ => none

/-- Embeds Go `url.ParseQuery` as the ordered list of decoded key/value
pairs. -/
def parseQuery (rq : Str) : List (Str × Str) :=
  (splitSepP isQuerySep rq).filterMap parsePiece

/-- The ordered value list of one key, Go `url.Values[k]`. -/
def queryValues (q : List (Str × Str)) (k : Str) : List Str :=
  (q.filter (fun e => e.1 == k)).map Prod.snd

/-- Embeds `sortQuery` (utils.go, from purell): when the parsed query map is
nonempty, rebuild the raw query with keys sorted, each key's values sorted,
and the values re-escaped (keys are written raw).  An empty parsed map leaves
the raw query untouched.  Go sorts the arbitrary map key order; the model
sorts the first-appearance key order, with the same sorted result. -/
def sortQueryU (u : URLO) : URLO :=
  let q := parseQuery u.rawQuery
  if q = [] then u
  else
    let ks := sortStrings ((q.map Prod.fst).dedup)
    let pieces := (ks.map (fun k =>
      (sortStrings (queryValues q k)).map (fun v => k ++ '=' :: QueryEscape v))).flatten
    { u with rawQuery := joinSep '&' pieces }

/-! ## appc discovery strings (vendored appc/spec discovery and types;
modelled, the vendored code lies outside this repository) -/

/-- Lowercase letter or digit, the body class of an AC identifier. -/
def isLowerAlnum (c : Char) : Bool := (decide ('a' ≤ c) && decide (c ≤ 'z')) || c.isDigit

/-- Separator class of an AC identifier. -/
def isACIdSep (c : Char) : Bool := c == '-' || c == '.' || c == '_' || c == '~' || c == '/'

/-- Tail of the AC identifier pattern: separators must be single and followed
by a lowercase alphanumeric character. -/
def acIdRest : Str → Bool
  | [] => true
  | c :: rest =>
    if isLowerAlnum c then acIdRest rest
    else if isACIdSep c then
      match rest with
      | [] => false
      | c2 :: rest2 => isLowerAlnum c2 && acIdRest rest2
    else false

/-- Modelled from the spec: the `types.ACIdentifier` validation pattern, the
anchored regular expression [a-z0-9]+([-._~/][a-z0-9]+)*. -/
def isValidACId : Str → Bool
  | [] => false
  | c :: rest => isLowerAlnum c && acIdRest rest

/-- A discovery app: image name and label map (association list in insertion
order). -/
structure App where
  name : Str
  labels : List (Str × Str)
  deriving DecidableEq, Repr

/-- Modelled from the spec: `discovery.NewApp` validates the name and the
label names as AC identifiers. -/
def NewApp (name : Str) (labels : List (Str × Str)) : Except Err App :=
  if isValidACId name && labels.all (fun l => isValidACId l.1) then .ok ⟨name, labels⟩
  else .error .badACIdentifier

/-- Index of the first occurrence of a character. -/
def idxOf (c : Char) : Str → Option Nat
  | [] => none
  | x :: rest => if x = c then some 0 else (idxOf c rest).map (fun n => n + 1)

/-- The appc discovery check that a colon may appear only before the first
comma (right after the app name): true when the string is malformed. -/
def colonAfterComma (s : Str) : Bool :=
  match idxOf ',' s, idxOf ':' s with
  | some ic, some io => decide (ic < io)
  | _, _ => false

/-- Replace the first colon with ",version=" (appc discovery app-string
preparation). -/
def replaceColonVersion : Str → Str
  | [] => []
  | c :: rest =>
    if c = ':' then ',' :: (toChars "version=" ++ rest)
    else c :: replaceColonVersion rest

/-- Modelled from the spec: `discovery.NewAppFromString` with the behavior
documented by this repository's distribution tests (appc_test.go): the first
colon denotes the version label, commas separate the labels, every label
piece needs an equals sign, names must be AC identifiers, duplicate label
names are rejected, and label values pass through byte-identically. -/
def NewAppFromString (s : Str) : Except Err App :=
  if colonAfterComma s then .error .badAppString
  else
    match splitSepP (fun c => c == ',') (replaceColonVersion s) with
    | [] => .error .badAppString
    | namePart :: labelParts => do
      let labels ← labelParts.mapM (fun piece =>
        match splitAtFirst '=' piece with
        | (k, some v) => .ok (k, v)
        | (_, none) => .error Err.missingLabelEq)
      if (labels.map Prod.fst).Nodup then NewApp namePart labels
      else .error .dupLabel

/-- The three fields of a parsed distribution URI. -/
structure DistParts where
  distType : Str
  version : Nat
  distString : Str
  deriving DecidableEq, Repr

/-- Go `strings.SplitN(s, sep, 3)`. -/
def splitN3 (sep : Char) (s : Str) : List Str :=
  match splitAtFirst sep s with
  | (p0, none) => [p0]
  | (p0, some r1) =>
    match splitAtFirst sep r1 with
    | (p1, none) => [p0, p1]
    | (p1, some r2) => [p0, p1, r2]

/-- Go `strings.TrimPrefix`. -/
def trimPre (pre s : Str) : Str := if pre.isPrefixOf s then s.drop pre.length else s

/-- Go `strconv.ParseUint(s, 10, _)` before the bit-size bound, which the
caller model checks: all decimal digits, nonempty. -/
def parseUintDec (s : Str) : Option Nat :=
  if s ≠ [] ∧ s.all Char.isDigit then
    some (s.foldl (fun acc c => 10 * acc + (c.toNat - 48)) 0)
  else none

/-- Embeds `parseDist` (utils.go): scheme check, opaque part split into
distribution type, version (uint32 after trimming "v=") and distribution
string. -/
def ParseDist (u : URLO) : Except Err DistParts :=
  if u.scheme ≠ toChars "cimd" then .error .unsupportedScheme
  else
    match splitN3 ':' u.opq with
    | [p0, p1, p2] =>
      match parseUintDec (trimPre (toChars "v=") p1) with
      | some v => if v < 4294967296 then .ok ⟨p0, v, p2⟩ else .error .malformedDistURI
      | none => .error .malformedDistURI
    | _ => .error .malformedDistURI

/-- Embeds `NewAppcFromApp` (appc.go): the URI "cimd:appc:v=0:" plus the name,
with one query piece name=QueryEscape(value) per label, then `sortQuery` for a
reproducible string.  Go iterates the label map in arbitrary order; the model
iterates the association list in order, which `sortQuery` then cancels. -/
def NewAppcFromApp (a : App) : URLO :=
  let rq := if a.labels = [] then []
    else joinSep '&' (a.labels.map (fun l => l.1 ++ '=' :: QueryEscape l.2))
  sortQueryU ⟨toChars "cimd", toChars "appc:v=0:" ++ a.name, rq⟩

/-- Embeds `NewAppc` (appc.go): parse the URI, parse the dist parts, check
the appc type, rebuild the comma-separated discovery app string (the name
plus one ",key=firstValue" per query key), parse it as a discovery app and
rebuild the canonical Appc distribution from it.  Go iterates the query map
in arbitrary order taking the first value of each key; the model iterates the
keys in first-appearance order. -/
def NewAppc (rawuri : Str) : Except Err URLO := do
  let u := urlParse rawuri
  let dp ← ParseDist u
  if dp.distType ≠ toChars "appc" then .error .wrongDistType
  else
    let q := parseQuery u.rawQuery
    let appcStr := dp.distString ++
      ((q.map Prod.fst).dedup.map (fun k =>
        ',' :: k ++ '=' :: (queryValues q k).headD [])).flatten
    match NewAppFromString appcStr with
    | .error e => .error e
    | .ok app => .ok (NewAppcFromApp app)

/-- The canonical raw query of a label map: keys sorted, one piece per key
with the looked-up value re-escaped; empty when there are no labels. -/
def canonQuery (labels : List (Str × Str)) : Str :=
  if labels = [] then []
  else joinSep '&' ((sortStrings ((labels.map Prod.fst).dedup)).map
    (fun k => k ++ '=' :: QueryEscape (lookupD labels k)))

/-- Embeds the `ACIRegistry.GetACI` draft cited by the claim (aciregistry.go):
build the canonical appc ref id from name and labels, load the ref and read
its digest; a missing ref leaves a nil pointer whose field access panics, and
both branches of the empty-digest test return ACINotFoundError. -/
def GetACI (s : CasState) (name : Str) (labels : List (Str × Str)) : Except Err Str := do
  let app ← NewApp name labels
  let refID := ComparableURIString (NewAppcFromApp app)
  match ← GetRef s refID with
  | none => .error .nilDerefPanic
  | some r =>
    if r.Digest = [] then .error .aciNotFound
    else .error .aciNotFound

def appA1 : App := ⟨toChars "example.com/app01",
  [(toChars "version", toChars "v1.0.0"), (toChars "label01", toChars "?&*/")]⟩

def appA2 : App := ⟨toChars "example.com/app01",
  [(toChars "label01", toChars "?&*/"), (toChars "version", toChars "v1.0.0")]⟩

theorem digestRegexpMatch_iff (cs : Str) : digestRegexpMatch cs = true ↔ SubMatch cs := by
  unfold digestRegexpMatch SubMatch
  simp only [List.any_eq_true, List.mem_range, Bool.and_eq_true, decide_eq_true_eq,
    beq_iff_eq]
  constructor
  · rintro ⟨i, -, p, -, k, -, ⟨⟨⟨⟨h1, h2⟩, h3⟩, h4⟩, h5⟩, h6⟩
    exact ⟨i, p, k, h1, h2, h3, h4, h5, h6⟩
  · rintro ⟨i, p, k, h1, h2, h3, h4, h5, h6⟩
    exact ⟨i, by omega, p, by omega, k, by omega, ⟨⟨⟨⟨h1, h2⟩, h3⟩, h4⟩, h5⟩, h6⟩

/-! ## Association-list lemmas used throughout the proofs -/

theorem kvGet_cons {α : Type} (e : Str × α) (t : List (Str × α)) (k : Str) :
    kvGet (e :: t) k = if e.1 = k then some e.2 else kvGet t k := by
  by_cases he : e.1 = k
  · simp [kvGet, List.find?, he]
  · rw [if_neg he]
    unfold kvGet
    rw [List.find?]
    rw [show (e.1 == k) = false from by simpa using he]

theorem kvGet_nil {α : Type} (k : Str) : kvGet ([] : List (Str × α)) k = none := rfl

theorem kvPut_cons {α : Type} (e : Str × α) (t : List (Str × α)) (k : Str) (v : α) :
    kvPut (e :: t) k v = if e.1 = k then (k, v) :: t else e :: kvPut t k v := rfl

theorem kvDel_cons {α : Type} (e : Str × α) (t : List (Str × α)) (k : Str) :
    kvDel (e :: t) k = if e.1 = k then kvDel t k else e :: kvDel t k := by
  by_cases he : e.1 = k <;> simp [kvDel, List.filter_cons, he]

theorem scanPre_cons (e : Str × Val) (t : Bucket) (pre : Str) :
    scanPre (e :: t) pre = if pre.isPrefixOf e.1 then e :: scanPre t pre else scanPre t pre := by
  by_cases hp : pre.isPrefixOf e.1 <;> simp [scanPre, List.filter_cons, hp]

theorem kvGet_put_self {α : Type} (b : List (Str × α)) (k : Str) (v : α) :
    kvGet (kvPut b k v) k = some v := by
  induction b with
  | nil => simp [kvGet, kvPut, List.find?]
  | cons e t ih =>
    rw [kvPut_cons]
    by_cases he : e.1 = k
    · simp [he, kvGet_cons]
    · rw [if_neg he, kvGet_cons, if_neg he]
      exact ih

theorem kvGet_put_other {α : Type} (b : List (Str × α)) (k k2 : Str) (v : α)
    (hne : k2 ≠ k) : kvGet (kvPut b k v) k2 = kvGet b k2 := by
  induction b with
  | nil =>
    rw [show kvPut ([] : List (Str × α)) k v = [(k, v)] from rfl,
      kvGet_cons, if_neg (Ne.symm hne)]
  | cons e t ih =>
    rw [kvPut_cons]
    by_cases he : e.1 = k
    · rw [if_pos he, kvGet_cons, kvGet_cons, if_neg (by simpa [he] using Ne.symm hne), he,
        if_neg (Ne.symm hne)]
    · rw [if_neg he, kvGet_cons, kvGet_cons, ih]

theorem kvGet_del_self {α : Type} (b : List (Str × α)) (k : Str) :
    kvGet (kvDel b k) k = none := by
  induction b with
  | nil => simp [kvGet, kvDel, List.find?]
  | cons e t ih =>
    rw [kvDel_cons]
    by_cases he : e.1 = k
    · rw [if_pos he]; exact ih
    · rw [if_neg he, kvGet_cons, if_neg he]; exact ih

theorem kvGet_del_other {α : Type} (b : List (Str × α)) (k k2 : Str)
    (hne : k2 ≠ k) : kvGet (kvDel b k) k2 = kvGet b k2 := by
  induction b with
  | nil => simp [kvGet, kvDel, List.find?]
  | cons e t ih =>
    rw [kvDel_cons]
    by_cases he : e.1 = k
    · rw [if_pos he, kvGet_cons, if_neg (he ▸ Ne.symm hne)]; exact ih
    · rw [if_neg he, kvGet_cons, kvGet_cons, ih]

theorem fst_kvPut {α : Type} (b : List (Str × α)) (k : Str) (v : α) :
    (kvPut b k v).map Prod.fst =
      if k ∈ b.map Prod.fst then b.map Prod.fst else b.map Prod.fst ++ [k] := by
  induction b with
  | nil => simp [kvPut]
  | cons e t ih =>
    rw [kvPut]
    by_cases he : e.1 = k
    · rw [if_pos he, if_pos (by rw [List.map_cons, he]; exact List.mem_cons_self k _),
        List.map_cons, List.map_cons, he]
    · rw [if_neg he]
      rw [List.map_cons, List.map_cons, ih]
      by_cases hk : k ∈ t.map Prod.fst
      · rw [if_pos hk, if_pos (List.mem_cons_of_mem _ hk)]
      · rw [if_neg hk, if_neg (by rw [List.mem_cons]; push_neg; exact ⟨Ne.symm he, hk⟩),
          List.cons_append]

theorem nodup_fst_kvPut {α : Type} (b : List (Str × α)) (k : Str) (v : α)
    (h : (b.map Prod.fst).Nodup) : ((kvPut b k v).map Prod.fst).Nodup := by
  rw [fst_kvPut]
  by_cases hk : k ∈ b.map Prod.fst
  · rwa [if_pos hk]
  · rw [if_neg hk]
    refine List.Nodup.append h (List.nodup_singleton k) ?hd
    intro a ha hmem
    rw [List.mem_singleton] at hmem
    exact hk (hmem ▸ ha)

theorem mem_kvPut_sub {α : Type} {b : List (Str × α)} {k : Str} {v : α} {e : Str × α}
    (h : e ∈ kvPut b k v) : e = (k, v) ∨ e ∈ b := by
  induction b with
  | nil => simpa [kvPut] using h
  | cons e2 t ih =>
    rw [kvPut_cons] at h
    by_cases he : e2.1 = k
    · rw [if_pos he, List.mem_cons] at h
      rcases h with h | h
      · exact .inl h
      · exact .inr (List.mem_cons_of_mem _ h)
    · rw [if_neg he, List.mem_cons] at h
      rcases h with h | h
      · exact .inr (h ▸ List.mem_cons_self _ _)
      · rcases ih h with h2 | h2
        · exact .inl h2
        · exact .inr (List.mem_cons_of_mem _ h2)

theorem scanPre_put_notPre (b : Bucket) (k pre : Str) (v : Val)
    (h : pre.isPrefixOf k = false) : scanPre (kvPut b k v) pre = scanPre b pre := by
  induction b with
  | nil =>
    show scanPre [(k, v)] pre = scanPre [] pre
    simp [scanPre, List.filter, h]
  | cons e t ih =>
    rw [kvPut_cons]
    by_cases he : e.1 = k
    · rw [if_pos he, scanPre_cons, scanPre_cons, if_neg (by simp [h]), he,
        if_neg (by simp [h])]
    · rw [if_neg he, scanPre_cons, scanPre_cons, ih]

theorem scanPre_put_singleton (b : Bucket) (k pre : Str) (v : Val)
    (hall : ∀ e ∈ b, pre.isPrefixOf e.1 = true → e.1 = k)
    (hnd : (b.map Prod.fst).Nodup)
    (hk : pre.isPrefixOf k = true) :
    scanPre (kvPut b k v) pre = [(k, v)] := by
  induction b with
  | nil =>
    show scanPre [(k, v)] pre = [(k, v)]
    simp [scanPre, List.filter, hk]
  | cons e t ih =>
    rw [kvPut_cons]
    by_cases he : e.1 = k
    · rw [if_pos he, scanPre_cons, if_pos hk]
      have hnil : scanPre t pre = [] := by
        rw [scanPre, List.filter_eq_nil_iff]
        intro e2 he2
        intro hp
        have he2k : e2.1 = k := hall e2 (List.mem_cons_of_mem _ he2) hp
        rw [List.map_cons] at hnd
        have hmem : e.1 ∈ List.map Prod.fst t := by
          rw [he, ← he2k]
          exact List.mem_map_of_mem Prod.fst he2
        exact hnd.not_mem hmem
      rw [hnil]
    · rw [if_neg he, scanPre_cons, if_neg ?hp]
      case hp =>
        intro hp
        exact he (hall e (List.mem_cons_self _ _) hp)
      exact ih (fun e2 he2 hp => hall e2 (List.mem_cons_of_mem _ he2) hp)
        (by rw [List.map_cons] at hnd; exact hnd.of_cons)

theorem mapM_ok {α β : Type} (l : List α) (f : α → Except Err β) (g : α → β)
    (h : ∀ e ∈ l, f e = .ok (g e)) : l.mapM f = .ok (l.map g) := by
  induction l with
  | nil => rfl
  | cons e t ih =>
    rw [List.mapM_cons, h e (List.mem_cons_self _ _),
      ih (fun e2 he2 => h e2 (List.mem_cons_of_mem _ he2))]
    rfl

/-! ## Facts about digest strings -/

theorem length_hexEncode (bs : List Nat) : (hexEncode bs).length = 2 * bs.length := by
  induction bs with
  | nil => rfl
  | cons b t ih =>
    simp only [hexEncode, List.map_cons, List.flatten_cons, List.length_append,
      List.length_cons] at *
    simp [hexByteLower, ih]
    omega

theorem mem_hexEncode_props {c : Char} {bs : List Nat} (h : c ∈ hexEncode bs) :
    isHexDigitChar c = true ∧ c ≠ ':' ∧ c ≠ '/' ∧ c ≠ '-' := by
  have h16 : ∀ m : Nat, m < 16 → isHexDigitChar (hexLowerDigit m) = true ∧
      hexLowerDigit m ≠ ':' ∧ hexLowerDigit m ≠ '/' ∧ hexLowerDigit m ≠ '-' := by decide
  induction bs with
  | nil => simp [hexEncode] at h
  | cons b t ih =>
    simp only [hexEncode, List.map_cons, List.flatten_cons, List.mem_append] at h
    rcases h with h | h
    · simp only [hexByteLower, List.mem_cons, List.not_mem_nil, or_false] at h
      rcases h with h | h <;> subst h
      · exact h16 _ (Nat.mod_lt _ (by norm_num))
      · exact h16 _ (Nat.mod_lt _ (by norm_num))
    · exact ih (by simpa [hexEncode] using h)

theorem algName_facts (a : Algorithm) :
    (algName a).length = 6 ∧
      ∀ c ∈ algName a, isDigestNameChar c = true ∧ c ≠ ':' ∧ c ≠ '/' ∧ c ≠ '-' := by
  cases a <;> exact ⟨rfl, by decide⟩

theorem algName_inj {a a2 : Algorithm} (h : algName a = algName a2) : a = a2 := by
  cases a <;> cases a2 <;> first | rfl | (exfalso; revert h; decide)

theorem algorithmOfName_algName (a : Algorithm) : algorithmOfName (algName a) = some a := by
  cases a <;> rfl

theorem hashSize_pos (a : Algorithm) : 1 ≤ hashSize a := by cases a <;> simp [hashSize]

theorem replaceFirstColon_eq_self {cs : Str} (h : ∀ c ∈ cs, c ≠ ':') :
    replaceFirstColon cs = cs := by
  induction cs with
  | nil => rfl
  | cons c t ih =>
    rw [replaceFirstColon, if_neg (by simpa using h c (List.mem_cons_self _ _)),
      ih (fun c2 hc2 => h c2 (List.mem_cons_of_mem _ hc2))]

theorem takeWhile_append_stop {p : Char → Bool} {l1 l2 : List Char} {x : Char}
    (h1 : ∀ c ∈ l1, p c = true) (h2 : p x = false) :
    (l1 ++ x :: l2).takeWhile p = l1 := by
  induction l1 with
  | nil => simp [List.takeWhile_cons, h2]
  | cons c t ih =>
    rw [List.cons_append, List.takeWhile_cons, h1 c (List.mem_cons_self _ _),
      ih (fun c2 hc => h1 c2 (List.mem_cons_of_mem _ hc))]
    rfl

theorem contains_false {l : Str} {c : Char} (h : ∀ x ∈ l, x ≠ c) : l.contains c = false := by
  induction l with
  | nil => rfl
  | cons x t ih =>
    simp only [List.contains_cons, Bool.or_eq_false_iff]
    exact ⟨by simpa using Ne.symm (h x (List.mem_cons_self _ _)),
      ih (fun y hy => h y (List.mem_cons_of_mem _ hy))⟩

theorem digestStr_length (a : Algorithm) (sum : List Nat) :
    (digestStr a sum).length = 7 + 2 * sum.length := by
  simp [digestStr, (algName_facts a).1, length_hexEncode]
  omega

theorem digestStr_mem_props {c : Char} {a : Algorithm} {sum : List Nat}
    (h : c ∈ digestStr a sum) : c ≠ ':' ∧ c ≠ '/' := by
  simp only [digestStr, List.mem_append, List.mem_cons] at h
  rcases h with h | h | h
  · have := (algName_facts a).2 c h
    exact ⟨this.2.1, this.2.2.1⟩
  · subst h; exact ⟨by decide, by decide⟩
  · have := mem_hexEncode_props h
    exact ⟨this.2.1, this.2.2.1⟩

theorem parseDigest_digestStr (a : Algorithm) (sum : List Nat) (hs : sum ≠ []) :
    ParseDigest (digestStr a sum) = .ok (digestStr a sum, a) := by
  have hlen6 : (algName a).length = 6 := (algName_facts a).1
  have hsum1 : 1 ≤ sum.length := by
    cases sum with
    | nil => exact absurd rfl hs
    | cons x t => simp
  have hnc : replaceFirstColon (digestStr a sum) = digestStr a sum :=
    replaceFirstColon_eq_self (fun c hc => (digestStr_mem_props hc).1)
  have hmatch : digestRegexpMatch (digestStr a sum) = true := by
    rw [digestRegexpMatch_iff]
    refine ⟨0, 6, 9, by omega, by omega, ?hk, ?hseg1, ?hget, ?hseg2⟩
    case hk => rw [digestStr_length]; omega
    case hseg1 =>
      rw [segAll, List.drop_zero, Nat.sub_zero, digestStr, ← hlen6, List.take_left]
      rw [List.all_eq_true]
      exact fun c hc => ((algName_facts a).2 c hc).1
    case hget =>
      rw [digestStr, List.get?_append_right (by omega), hlen6]
      rfl
    case hseg2 =>
      have hsplit : digestStr a sum = (algName a ++ ['-']) ++ hexEncode sum := by
        rw [digestStr, List.append_assoc]
        rfl
      have hlen7 : (algName a ++ ['-']).length = 6 + 1 := by simp [hlen6]
      rw [segAll, hsplit, ← hlen7, List.drop_left, List.all_eq_true]
      exact fun c hc => (mem_hexEncode_props (List.mem_of_mem_take hc)).1
  have htake : (digestStr a sum).takeWhile (fun c => c ≠ '-') = algName a := by
    rw [digestStr]
    exact takeWhile_append_stop
      (fun c hc => by simpa using ((algName_facts a).2 c hc).2.2.2) (by simp)
  simp only [ParseDigest, hnc, hmatch, if_true, htake, algorithmOfName_algName]

theorem fullDigest_pre_eq {a a2 : Algorithm} {hx hx2 : Str}
    (hlen : hx.length = 2 * hashSize a) (hlen2 : hx2.length = 2 * hashSize a2)
    (hpre : (algName a ++ '-' :: hx) <+: (algName a2 ++ '-' :: hx2)) :
    algName a ++ '-' :: hx = algName a2 ++ '-' :: hx2 := by
  have h6 : (algName a).length = 6 := (algName_facts a).1
  have h6b : (algName a2).length = 6 := (algName_facts a2).1
  obtain ⟨t, ht⟩ := hpre
  have htake : (algName a2 ++ '-' :: hx2).take 6 = algName a2 := by
    rw [← h6b, List.take_left]
  have htake2 : ((algName a ++ '-' :: hx) ++ t).take 6 = algName a := by
    rw [List.append_assoc, ← h6, List.take_left]
  have hnames : algName a = algName a2 := by rw [← htake2, ht, htake]
  have haa : a = a2 := algName_inj hnames
  subst haa
  refine List.IsPrefix.eq_of_length ⟨t, ht⟩ ?hl
  simp [hlen, hlen2]

theorem wf_hall {b : Bucket} (hwf : WFBlobBucket b) {a : Algorithm} {hx : Str}
    (hlen : hx.length = 2 * hashSize a) :
    ∀ e ∈ b, (toChars "digest/" ++ (algName a ++ '-' :: hx)).isPrefixOf e.1 = true →
      e.1 = toChars "digest/" ++ (algName a ++ '-' :: hx) := by
  intro e he hp
  rw [List.isPrefixOf_iff_prefix] at hp
  have hd : (toChars "digest/").isPrefixOf e.1 = true := by
    rw [List.isPrefixOf_iff_prefix]
    exact List.IsPrefix.trans (List.prefix_append _ _) hp
  obtain ⟨a2, hx2, hkey, hlen2⟩ := hwf.2 e he hd
  rw [hkey] at hp ⊢
  rw [List.prefix_append_right_inj] at hp
  rw [fullDigest_pre_eq hlen hlen2 hp]

theorem writeBlobInfo_ok {b : Bucket} {bi : BlobInfo}
    (h1 : bi.Digest.contains '/' = false)
    (h2 : bi.MediaType.contains '/' = false) (h3 : bi.MediaType ≠ []) :
    writeBlobInfo b bi = .ok (bPut (bPut b (toChars "digest/" ++ bi.Digest) (.biv bi))
      (toChars "mediatype/" ++ bi.MediaType ++ '/' :: bi.Digest) .nilv) := by
  simp only [writeBlobInfo, blobInfoDigestKey, blobInfoMediaTypeDigestKey, h1, h2,
    Bool.or_self, Bool.false_eq_true, if_false, if_neg h3]
  rfl

theorem key_notPre (x y z : Str) :
    (toChars "digest/" ++ x).isPrefixOf (toChars "mediatype/" ++ y ++ '/' :: z) = false := rfl

theorem key_ne (x y z : Str) :
    toChars "mediatype/" ++ y ++ '/' :: z ≠ toChars "digest/" ++ x := by
  intro h
  have h0 := key_notPre x y z
  rw [h] at h0
  have h1 : (toChars "digest/" ++ x).isPrefixOf (toChars "digest/" ++ x) = true := by
    rw [List.isPrefixOf_iff_prefix]
  rw [h0] at h1
  exact Bool.false_ne_true h1

theorem bind_ok_eq {ε α β : Type} (a : α) (f : α → Except ε β) :
    (Except.ok a : Except ε α) >>= f = f a := rfl

/-- C3: for every byte stream written with WriteBlob(stream, mediaType,
extraData, algo) returning digest d, ReadBlob(d) yields exactly the bytes of
the stream, and the recomputed digest of those bytes under algorithm algo
equals d; d is the algorithm name, a hyphen, and the lowercase hex of the full
hash output, with no truncation. -/
theorem C3_writeBlob_readBlob_roundtrip
    (hash : Algorithm → List Nat → List Nat)
    (hlen : ∀ a2 bs2, (hash a2 bs2).length = hashSize a2)
    (s : CasState) (bs : List Nat) (mt : Str) (a : Algorithm) (now : Nat)
    (hwf : WFBlobBucket s.blobInfoB)
    (hmt1 : mt.contains '/' = false) (hmt2 : mt ≠ []) :
    (WriteBlob hash s bs mt [] a now).1 = .ok (digestStr a (hash a bs)) ∧
    digestStr a (hash a bs) = algName a ++ '-' :: hexEncode (hash a bs) ∧
    (hexEncode (hash a bs)).length = 2 * hashSize a ∧
    ReadBlob (WriteBlob hash s bs mt [] a now).2 (digestStr a (hash a bs)) = .ok bs := by
  have hhexlen : (hexEncode (hash a bs)).length = 2 * hashSize a := by
    rw [length_hexEncode, hlen]
  have hsum_ne : hash a bs ≠ [] := by
    have h1 := hlen a bs
    have h2 := hashSize_pos a
    intro h
    rw [h] at h1
    simp at h1
    omega
  set d : Str := digestStr a (hash a bs) with hd
  set bi : BlobInfo := ⟨d, mt, bs.length, now, now, []⟩ with hbi
  have hdnos : d.contains '/' = false :=
    contains_false (fun c hc => (digestStr_mem_props hc).2)
  set k : Str := toChars "digest/" ++ d with hk
  set k2 : Str := toChars "mediatype/" ++ mt ++ '/' :: d with hk2
  set B1 : Bucket := bPut (bPut s.blobInfoB k (.biv bi)) k2 .nilv with hB1
  set B2 : Bucket := bPut (bPut B1 k (.biv bi)) k2 .nilv with hB2
  have hwbi : ∀ b : Bucket, writeBlobInfo b bi =
      .ok (bPut (bPut b k (.biv bi)) k2 .nilv) := fun b =>
    @writeBlobInfo_ok b bi hdnos hmt1 hmt2
  have hwb : WriteBlob hash s bs mt [] a now =
      (.ok d, { blobInfoB := B2, refB := s.refB, diskv := kvPut s.diskv d bs }) := by
    simp only [WriteBlob, hwbi, hB2, hB1]
    rfl
  have hparse : ParseDigest d = .ok (d, a) := parseDigest_digestStr a _ hsum_ne
  have hall1 : ∀ e ∈ B1, k.isPrefixOf e.1 = true → e.1 = k := by
    intro e he hp
    rcases mem_kvPut_sub he with rfl | he2
    · rw [hk, key_notPre] at hp
      exact absurd hp (by simp)
    rcases mem_kvPut_sub he2 with rfl | he3
    · rfl
    · exact @wf_hall _ hwf _ (hexEncode (hash a bs)) hhexlen e he3 hp
  have hnd1 : (B1.map Prod.fst).Nodup :=
    nodup_fst_kvPut _ _ _ (nodup_fst_kvPut _ _ _ hwf.1)
  have hscan : scanPre B2 k = [(k, .biv bi)] := by
    rw [hB2, show bPut (bPut B1 k (Val.biv bi)) k2 Val.nilv
        = kvPut (kvPut B1 k (Val.biv bi)) k2 Val.nilv from rfl]
    rw [scanPre_put_notPre _ _ _ _ (hk ▸ key_notPre d mt d)]
    exact scanPre_put_singleton B1 k k (.biv bi) hall1 hnd1
      (by rw [List.isPrefixOf_iff_prefix])
  have hget : getBlobInfosWithDigestPre B2 d = .ok [bi] := by
    simp only [getBlobInfosWithDigestPre, blobInfoDigestKey, hdnos, Bool.false_eq_true,
      if_false]
    show ((scanPre B2 k).mapM _) = _
    rw [hscan]
    rfl
  have hresolve : ResolveDigest ⟨B2, s.refB, kvPut s.diskv d bs⟩ d = .ok d := by
    simp only [ResolveDigest, hparse]
    show (if d.length < prefixLen a + 3 then _ else _) = _
    rw [if_neg (by
      rw [hd, digestStr_length, hlen]
      have := hashSize_pos a
      show ¬ (7 + 2 * hashSize a < prefixLen a + 3)
      have h6 : prefixLen a = 6 := (algName_facts a).1
      omega)]
    show (do
      let bis ← getBlobInfosWithDigestPre B2 d
      match bis with
      | [] => Except.error Err.digestNotFound
      | [bi2] => Except.ok bi2.Digest
      | _ => Except.error Err.ambiguous) = Except.ok d
    rw [hget]
    rfl
  have hgbi : getBlobInfo B2 d = .ok (some bi) := by
    simp only [getBlobInfo, blobInfoDigestKey, hdnos, Bool.false_eq_true, if_false]
    show (match bGet B2 k with
      | none => Except.ok none
      | some (.biv bi2) => Except.ok (some bi2)
      | some _ => Except.error Err.unmarshalError) = _
    have hbg : bGet B2 k = some (.biv bi) := by
      rw [bGet, hB2, show bPut (bPut B1 k (Val.biv bi)) k2 Val.nilv
          = kvPut (kvPut B1 k (Val.biv bi)) k2 Val.nilv from rfl,
        kvGet_put_other _ _ _ _ (Ne.symm (key_ne d mt d)), ← hk]
      exact kvGet_put_self _ _ _
    rw [hbg]
  have hdkv : dkvGet (kvPut s.diskv d bs) d = some bs := by
    rw [dkvGet, kvGet_put_self]
  refine ⟨by rw [hwb], rfl, hhexlen, ?hrb⟩
  rw [hwb]
  simp only [ReadBlob, hresolve, hgbi, hdkv, bind_ok_eq]

theorem C3_witness :
    (∀ a2 bs2, (constHash a2 bs2).length = hashSize a2) ∧
    WFBlobBucket emptyCas.blobInfoB ∧
    (toChars "text-plain").contains '/' = false ∧
    toChars "text-plain" ≠ [] ∧
    ((WriteBlob constHash emptyCas [104, 105] (toChars "text-plain") [] .sha256 0).1 =
        .ok (digestStr .sha256 (constHash .sha256 [104, 105])) ∧
      digestStr .sha256 (constHash .sha256 [104, 105]) =
        algName .sha256 ++ '-' :: hexEncode (constHash .sha256 [104, 105]) ∧
      (hexEncode (constHash .sha256 [104, 105])).length = 2 * hashSize .sha256 ∧
      ReadBlob (WriteBlob constHash emptyCas [104, 105] (toChars "text-plain") [] .sha256 0).2
        (digestStr .sha256 (constHash .sha256 [104, 105])) = .ok [104, 105]) :=
  ⟨fun a2 _ => by cases a2 <;> rfl,
   ⟨List.nodup_nil, fun e he _ => absurd he (List.not_mem_nil e)⟩,
   rfl,
   by decide,
   C3_writeBlob_readBlob_roundtrip constHash (fun a2 _ => by cases a2 <;> rfl)
     emptyCas [104, 105] (toChars "text-plain") .sha256 0
     ⟨List.nodup_nil, fun e he _ => absurd he (List.not_mem_nil e)⟩ rfl (by decide)⟩

/-- C1: the claim says RemoveBlob(d, force=true) on a blob with at least one
ref returns without error and leaves no BlobInfo, blob data, referring ref or
blob file.  The code instead force-removes the refs in the committed ref-DB
transaction but then still fails the stale `len(refs) != 0` check: it returns
the "cannot remove referenced blob" error and leaves the BlobInfo row and the
on-disk blob file in place (only the refs are gone). -/
theorem C1_removeBlob_force_bug :
    (SetRef sAB refIdA dA).1 = .ok () ∧
    GetRefsByDigest sRef1 dA = .ok [⟨refIdA, dA⟩] ∧
    (RemoveBlob sRef1 dA true).1 = .error .removeReferenced ∧
    (RemoveBlob sRef1 dA true).2.refB = [] ∧
    (RemoveBlob sRef1 dA true).2.blobInfoB = sAB.blobInfoB ∧
    (RemoveBlob sRef1 dA true).2.diskv = sAB.diskv := by decide

/-- C2: the claim says that after SetRef(id, d2) overwrites a ref previously
pointing at d1, GetRefsByDigest(d1) no longer returns id.  The code's writeRef
never deletes the old digest/d1/id secondary index entry, so after the
overwrite GetRefsByDigest(d1) still returns the ref for id (now carrying
digest d2): the secondary index invariant is violated. -/
theorem C2_setRef_overwrite_stale_index :
    (SetRef sAB (toChars "a") dA).1 = .ok () ∧
    (SetRef sC2a (toChars "a") dB).1 = .ok () ∧
    GetRef sC2b (toChars "a") = .ok (some ⟨toChars "a", dB⟩) ∧
    GetRefsByDigest sC2b dA = .ok [⟨toChars "a", dB⟩] := by decide

/-- C5 counterexample: ParseDigest accepts the string sha256-aa! although it
does not match the claim's anchored regular expression, because the code calls
MatchString on an unanchored pattern.  The claimed iff fails at this input. -/
theorem C5_counterexample :
    ParseDigest (toChars "sha256-aa!") = .ok (toChars "sha256-aa!", .sha256) ∧
    specAnchoredMatch (replaceFirstColon (toChars "sha256-aa!")) = false ∧
    (algorithmOfName ((replaceFirstColon (toChars "sha256-aa!")).takeWhile
      (fun c => c ≠ '-'))).isSome = true := by decide

/-- C5 (amended): ParseDigest(s) succeeds if and only if, after replacing the
first colon with a hyphen, SOME SUBSTRING of the string matches
`[A-Za-z0-9_+.-]+-[A-Fa-f0-9]+` (the pattern is applied unanchored) and the
segment before the first hyphen is a known algorithm name (sha256 or sha512);
every other input fails with a bad-digest error. -/
theorem C5_parseDigest_amended (ds : Str) :
    (∃ r, ParseDigest ds = .ok r) ↔
      SubMatch (replaceFirstColon ds) ∧
      (algorithmOfName ((replaceFirstColon ds).takeWhile
        (fun c => c ≠ '-'))).isSome = true := by
  constructor
  · rintro ⟨r, hr⟩
    by_cases hm : digestRegexpMatch (replaceFirstColon ds) = true
    · refine ⟨(digestRegexpMatch_iff _).mp hm, ?_⟩
      simp only [ParseDigest, hm, if_true] at hr
      cases halg : algorithmOfName ((replaceFirstColon ds).takeWhile (fun c => c ≠ '-')) with
      | none => rw [halg] at hr; exact absurd hr (by simp)
      | some a => simp
    · simp only [ParseDigest, Bool.not_eq_true] at hr
      rw [Bool.not_eq_true] at hm
      rw [hm] at hr
      exact absurd hr (by simp)
  · rintro ⟨hsm, halg⟩
    rw [← digestRegexpMatch_iff] at hsm
    cases ha : algorithmOfName ((replaceFirstColon ds).takeWhile (fun c => c ≠ '-')) with
    | none => rw [ha] at halg; exact absurd halg (by simp)
    | some a =>
      refine ⟨(replaceFirstColon ds, a), ?_⟩
      simp only [ParseDigest, hsm, if_true, ha]

/-- C6 counterexample: the well-formed partial digest sha256-a has total
length len("sha256")+2, yet ResolveDigest rejects it as too short (the code
requires at least len(algorithm)+3 characters, one full hex nibble pair after
the hyphen), even on a store holding blobs whose digests extend it. -/
theorem C6_counterexample :
    ParseDigest (toChars "sha256-a") = .ok (toChars "sha256-a", .sha256) ∧
    (toChars "sha256-a").length = prefixLen .sha256 + 2 ∧
    ResolveDigest emptyCas (toChars "sha256-a") = .error .tooShort ∧
    ResolveDigest sAB (toChars "sha256-a") = .error .tooShort := by decide

/-- C6 (amended): a well-formed partial digest is accepted by ResolveDigest
exactly when its total length is at least len(algorithm)+3, i.e. at least one
full hex nibble pair after the hyphen; any shorter parseable input fails with
the too-short error.  Among accepted prefixes, zero matching stored blobs
yields the not-found error, two or more the ambiguous error, and exactly one
returns that blob's full digest. -/
theorem C6_resolveDigest_amended (s : CasState) (inD d : Str) (a : Algorithm)
    (hp : ParseDigest inD = .ok (d, a)) :
    (d.length < prefixLen a + 3 → ResolveDigest s inD = .error .tooShort) ∧
    (prefixLen a + 3 ≤ d.length →
      ∀ l, getBlobInfosWithDigestPre s.blobInfoB d = .ok l →
        (l = [] → ResolveDigest s inD = .error .digestNotFound) ∧
        (∀ bi, l = [bi] → ResolveDigest s inD = .ok bi.Digest) ∧
        (2 ≤ l.length → ResolveDigest s inD = .error .ambiguous)) := by
  constructor
  · intro h
    simp only [ResolveDigest, hp, bind_ok_eq, if_pos h]
  · intro h l hl
    refine ⟨?h0, ?h1, ?h2⟩
    case h0 =>
      intro hle
      subst hle
      simp only [ResolveDigest, hp, bind_ok_eq, hl]
      rw [if_neg (by omega)]
    case h1 =>
      intro bi hbi
      subst hbi
      simp only [ResolveDigest, hp, bind_ok_eq, hl]
      rw [if_neg (by omega)]
    case h2 =>
      intro h2
      match l, h2 with
      | x :: y :: rest, _ =>
        simp only [ResolveDigest, hp, bind_ok_eq, hl]
        rw [if_neg (by omega)]

theorem C6_witness :
    ParseDigest (toChars "sha256-aaa") = .ok (toChars "sha256-aaa", .sha256) ∧
    ((toChars "sha256-aaa").length < prefixLen .sha256 + 3 →
      ResolveDigest sAB (toChars "sha256-aaa") = .error .tooShort) ∧
    (prefixLen .sha256 + 3 ≤ (toChars "sha256-aaa").length →
      ∀ l, getBlobInfosWithDigestPre sAB.blobInfoB (toChars "sha256-aaa") = .ok l →
        (l = [] → ResolveDigest sAB (toChars "sha256-aaa") = .error .digestNotFound) ∧
        (∀ bi, l = [bi] → ResolveDigest sAB (toChars "sha256-aaa") = .ok bi.Digest) ∧
        (2 ≤ l.length → ResolveDigest sAB (toChars "sha256-aaa") = .error .ambiguous)) :=
  ⟨by decide,
   (C6_resolveDigest_amended sAB (toChars "sha256-aaa") (toChars "sha256-aaa") .sha256
     (by decide)).1,
   (C6_resolveDigest_amended sAB (toChars "sha256-aaa") (toChars "sha256-aaa") .sha256
     (by decide)).2⟩

/-- C7 counterexample: the claim says Render(digest, rebuild=false) returns
without re-rendering only when both the TreeInfo row and the on-disk rendered
directory exist.  In the code IsRendered consults only the DB row, so with the
row present and the directory absent Render returns the id and changes
nothing: no directory is materialized. -/
theorem C7_counterexample :
    getInfo tsSt0.infoB (toChars "x") = .ok (some tsInfo0) ∧
    tsSt0.dirs = [] ∧
    Render (fun _ => toChars "x") (fun _ => toChars "c") (fun _ => 1) tsSt0 dA false =
      .ok (toChars "x", tsSt0) := by decide

theorem id_image_key_notPre (x y z : Str) :
    (toChars "id/" ++ x).isPrefixOf (toChars "image/" ++ y ++ '/' :: z) = false := rfl

theorem id_image_key_ne (x y z : Str) :
    toChars "image/" ++ y ++ '/' :: z ≠ toChars "id/" ++ x := by
  intro h
  have h0 := id_image_key_notPre x y z
  rw [h] at h0
  have h1 : (toChars "id/" ++ x).isPrefixOf (toChars "id/" ++ x) = true := by
    rw [List.isPrefixOf_iff_prefix]
  rw [h0] at h1
  exact Bool.false_ne_true h1

/-- C7 (amended): Render(digest, rebuild=false) returns id without
re-rendering exactly when the TreeInfo row for id exists in the database (the
on-disk directory is not consulted); when the row is missing the tree is
(re)rendered before returning: afterwards both the info row and the rendered
directory for id exist. -/
theorem C7_render_amended (calcID chk : Str → Str) (size : Str → Nat)
    (st : TsState) (digest : Str)
    (hid : (calcID digest).contains '/' = false)
    (hdg : digest.contains '/' = false) (hdg2 : digest ≠ []) :
    (∀ i, getInfo st.infoB (calcID digest) = .ok (some i) →
      Render calcID chk size st digest false = .ok (calcID digest, st)) ∧
    (getInfo st.infoB (calcID digest) = .ok none →
      ∃ st2, Render calcID chk size st digest false = .ok (calcID digest, st2) ∧
        calcID digest ∈ st2.dirs ∧
        getInfo st2.infoB (calcID digest) =
          .ok (some ⟨calcID digest, digest, chk (calcID digest), size (calcID digest)⟩)) := by
  set id := calcID digest with hidq
  constructor
  · intro i hi
    simp only [Render, IsRendered, Bool.false_eq_true, if_false, hi, bind_ok_eq]
    rfl
  · intro hi
    have hwi : writeInfo st.infoB ⟨id, digest, chk id, size id⟩ =
        .ok (bPut (bPut st.infoB (toChars "id/" ++ id)
          (.infov ⟨id, digest, chk id, size id⟩))
          (toChars "image/" ++ digest ++ '/' :: id) .nilv) := by
      simp only [writeInfo, infoIDKey, infoImageKey, hid, hdg, Bool.or_self,
        Bool.false_eq_true, if_false, if_neg hdg2]
      rfl
    have hgi2 : ∀ b2, writeInfo st.infoB ⟨id, digest, chk id, size id⟩ = .ok b2 →
        getInfo b2 id = .ok (some ⟨id, digest, chk id, size id⟩) := by
      intro b2 hb2
      rw [hwi] at hb2
      cases hb2
      simp only [getInfo, infoIDKey, hid, Bool.false_eq_true, if_false, bind_ok_eq]
      rw [show bPut (bPut st.infoB (toChars "id/" ++ id)
          (Val.infov ⟨id, digest, chk id, size id⟩))
          (toChars "image/" ++ digest ++ '/' :: id) Val.nilv
        = kvPut (kvPut st.infoB (toChars "id/" ++ id)
          (Val.infov ⟨id, digest, chk id, size id⟩))
          (toChars "image/" ++ digest ++ '/' :: id) Val.nilv from rfl]
      rw [bGet, kvGet_put_other _ _ _ _ (Ne.symm (id_image_key_ne id digest id)),
        kvGet_put_self]
    by_cases hd : id ∈ st.dirs
    · -- partial directory with no info row: remove clears the directory first
      have hrm : tsRemove st id = .ok ⟨st.infoB, st.dirs.filter (fun x => decide (x ≠ id))⟩ := by
        simp only [tsRemove, if_pos hd, removeInfo, hi, bind_ok_eq]
      have hnd : id ∉ st.dirs.filter (fun x => decide (x ≠ id)) := by
        intro hmem
        have := List.of_mem_filter hmem
        simp at this
      refine ⟨⟨bPut (bPut st.infoB (toChars "id/" ++ id)
          (.infov ⟨id, digest, chk id, size id⟩))
          (toChars "image/" ++ digest ++ '/' :: id) .nilv,
        id :: st.dirs.filter (fun x => decide (x ≠ id))⟩, ?hr, ?hm, ?hg⟩
      case hr =>
        simp only [Render, IsRendered, hi, bind_ok_eq, hrm, tsRender, if_neg hnd, hwi]
        rfl
      case hm => exact List.mem_cons_self _ _
      case hg => exact hgi2 _ hwi
    · have hrm : tsRemove st id = .ok st := by
        simp only [tsRemove, if_neg hd]
      refine ⟨⟨bPut (bPut st.infoB (toChars "id/" ++ id)
          (.infov ⟨id, digest, chk id, size id⟩))
          (toChars "image/" ++ digest ++ '/' :: id) .nilv, id :: st.dirs⟩, ?hr, ?hm, ?hg⟩
      case hr =>
        simp only [Render, IsRendered, hi, bind_ok_eq, hrm, tsRender, if_neg hd, hwi]
        rfl
      case hm => exact List.mem_cons_self _ _
      case hg => exact hgi2 _ hwi

theorem C7_witness :
    (toChars "x").contains '/' = false ∧
    dA.contains '/' = false ∧
    dA ≠ [] ∧
    ((∀ i, getInfo (⟨[], []⟩ : TsState).infoB (toChars "x") = .ok (some i) →
        Render (fun _ => toChars "x") (fun _ => toChars "c") (fun _ => 1)
          ⟨[], []⟩ dA false = .ok (toChars "x", ⟨[], []⟩)) ∧
      (getInfo (⟨[], []⟩ : TsState).infoB (toChars "x") = .ok none →
        ∃ st2, Render (fun _ => toChars "x") (fun _ => toChars "c") (fun _ => 1)
            ⟨[], []⟩ dA false = .ok (toChars "x", st2) ∧
          toChars "x" ∈ st2.dirs ∧
          getInfo st2.infoB (toChars "x") =
            .ok (some ⟨toChars "x", dA, toChars "c", 1⟩))) :=
  ⟨rfl, by decide, by decide,
   C7_render_amended (fun _ => toChars "x") (fun _ => toChars "c") (fun _ => 1)
     ⟨[], []⟩ dA rfl (by decide) (by decide)⟩

theorem sortStrings_perm_eq {l1 l2 : List Str} (h : List.Perm l1 l2) :
    sortStrings l1 = sortStrings l2 := by
  refine List.eq_of_perm_of_sorted ?hp (List.sorted_insertionSort SLe l1)
    (List.sorted_insertionSort SLe l2)
  exact (List.perm_insertionSort SLe l1).trans (h.trans (List.perm_insertionSort SLe l2).symm)

theorem find?_eq_head_filter {α : Type} (l : List α) (p : α → Bool) :
    l.find? p = (l.filter p).head? := by
  induction l with
  | nil => rfl
  | cons x t ih =>
    by_cases hx : p x = true
    · simp [List.find?, List.filter_cons, hx]
    · rw [List.filter_cons, if_neg (by simp [hx]), ← ih]
      simp [List.find?, hx]

theorem filter_key_len_le_one {l : List (Str × Str)} (hnd : (l.map Prod.fst).Nodup)
    (k : Str) : (l.filter (fun e => e.1 == k)).length ≤ 1 := by
  induction l with
  | nil => simp
  | cons x t ih =>
    rw [List.map_cons] at hnd
    by_cases hx : x.1 = k
    · rw [List.filter_cons, if_pos (by simp [hx])]
      have hnil : t.filter (fun e => e.1 == k) = [] := by
        rw [List.filter_eq_nil_iff]
        intro e he hpe
        apply hnd.not_mem
        have he1 : e.1 = k := by simpa using hpe
        rw [hx, ← he1]
        exact List.mem_map_of_mem _ he
      simp [hnil]
    · rw [List.filter_cons, if_neg (by simp [hx])]
      exact ih hnd.of_cons

theorem perm_len_le_one_eq {α : Type} {l1 l2 : List α} (h : List.Perm l1 l2)
    (hl : l1.length ≤ 1) : l1 = l2 := by
  cases l1 with
  | nil => exact h.nil_eq
  | cons x t =>
    cases t with
    | nil => exact (List.perm_singleton.mp h.symm).symm
    | cons y t2 => simp at hl

theorem lookupD_perm {l1 l2 : List (Str × Str)} (h : List.Perm l1 l2)
    (hnd : (l1.map Prod.fst).Nodup) (k : Str) : lookupD l1 k = lookupD l2 k := by
  unfold lookupD
  rw [find?_eq_head_filter, find?_eq_head_filter,
    perm_len_le_one_eq (h.filter _) (filter_key_len_le_one hnd k)]

theorem map_digitChar_inj (l1 : List Nat) : ∀ (l2 : List Nat), (∀ d ∈ l1, d < 10) →
    (∀ d ∈ l2, d < 10) →
    l1.map (fun d => Char.ofNat (48 + d)) = l2.map (fun d => Char.ofNat (48 + d)) →
    l1 = l2 := by
  induction l1 with
  | nil =>
    intro l2 _ _ he
    cases l2 with
    | nil => rfl
    | cons => simp at he
  | cons d t ih =>
    intro l2 h1 h2 he
    cases l2 with
    | nil => simp at he
    | cons d2 t2 =>
      simp only [List.map_cons, List.cons.injEq] at he
      have hinj : ∀ a < 10, ∀ b < 10,
          Char.ofNat (48 + a) = Char.ofNat (48 + b) → a = b := by decide
      have hd : d = d2 := hinj d (h1 d (List.mem_cons_self _ _)) d2
        (h2 d2 (List.mem_cons_self _ _)) he.1
      rw [hd, ih t2 (fun x hx => h1 x (List.mem_cons_of_mem _ hx))
        (fun x hx => h2 x (List.mem_cons_of_mem _ hx)) he.2]

theorem natDec_inj {m n : Nat} (h : natDec m = natDec n) : m = n := by
  have hzero : ∀ j : Nat, j ≠ 0 →
      ((Nat.digits 10 j).reverse.map (fun d => Char.ofNat (48 + d))) = ['0'] → False := by
    intro j hj hmap
    cases hrev : (Nat.digits 10 j).reverse with
    | nil => rw [hrev] at hmap; simp at hmap
    | cons d t =>
      rw [hrev, List.map_cons] at hmap
      simp only [List.cons.injEq, List.map_eq_nil_iff] at hmap
      have hdig : Nat.digits 10 j = [d] := by
        have := congrArg List.reverse hrev
        rw [List.reverse_reverse] at this
        rw [this, hmap.2, List.reverse_cons, List.reverse_nil, List.nil_append]
      have hd10 : d < 10 := Nat.digits_lt_base (by norm_num)
        (by rw [hdig]; exact List.mem_singleton_self d)
      have hd0 : d = 0 := by
        have : ∀ a < 10, Char.ofNat (48 + a) = '0' → a = 0 := by decide
        exact this d hd10 hmap.1
      have := Nat.ofDigits_digits 10 j
      rw [hdig, hd0] at this
      simp [Nat.ofDigits] at this
      exact hj this.symm
  by_cases hm : m = 0 <;> by_cases hn : n = 0
  · rw [hm, hn]
  · rw [natDec, if_pos hm, natDec, if_neg hn] at h
    exact absurd h.symm (fun hc => hzero n hn hc)
  · rw [natDec, if_neg hm, natDec, if_pos hn] at h
    exact absurd h (fun hc => hzero m hm hc)
  · rw [natDec, if_neg hm, natDec, if_neg hn] at h
    have hb1 : ∀ d ∈ (Nat.digits 10 m).reverse, d < 10 := by
      intro d hd
      exact Nat.digits_lt_base (by norm_num) (List.mem_reverse.mp hd)
    have hb2 : ∀ d ∈ (Nat.digits 10 n).reverse, d < 10 := by
      intro d hd
      exact Nat.digits_lt_base (by norm_num) (List.mem_reverse.mp hd)
    have hrev := map_digitChar_inj _ _ hb1 hb2 h
    have hdig : Nat.digits 10 m = Nat.digits 10 n := by
      have := congrArg List.reverse hrev
      rwa [List.reverse_reverse, List.reverse_reverse] at this
    exact Nat.digits_inj_iff.mp hdig

theorem char_toNat_lt (c : Char) : c.toNat < 1114112 := by
  rcases c.valid with h | h
  · exact lt_trans h (by norm_num)
  · exact h.2

theorem char_toNat_inj {c1 c2 : Char} (h : c1.toNat = c2.toNat) : c1 = c2 := by
  have hv : c1.val = c2.val := UInt32.ext h
  exact Char.ext hv

theorem byteEncode_lt (s : Str) : ∀ x ∈ byteEncode s, x < 256 := by
  induction s with
  | nil => intro x hx; simp [byteEncode] at hx
  | cons c t ih =>
    intro x hx
    simp only [byteEncode, List.map_cons, List.flatten_cons, List.mem_append] at hx
    rcases hx with hx | hx
    · have hc := char_toNat_lt c
      simp only [List.mem_cons, List.not_mem_nil, or_false] at hx
      rcases hx with rfl | rfl | rfl <;> omega
    · exact ih x (by simpa [byteEncode] using hx)

theorem byteEncode_inj : Function.Injective byteEncode := by
  intro s1 s2 h
  induction s1 generalizing s2 with
  | nil =>
    cases s2 with
    | nil => rfl
    | cons c t => simp [byteEncode] at h
  | cons c t ih =>
    cases s2 with
    | nil => simp [byteEncode] at h
    | cons c2 t2 =>
      have h2 : c.toNat / 65536 :: c.toNat / 256 % 256 :: c.toNat % 256 :: byteEncode t
          = c2.toNat / 65536 :: c2.toNat / 256 % 256 :: c2.toNat % 256 :: byteEncode t2 := h
      simp only [List.cons.injEq] at h2
      have hc : c = c2 := by
        apply char_toNat_inj
        have hl1 := char_toNat_lt c
        have hl2 := char_toNat_lt c2
        omega
      rw [hc, ih h2.2.2.2]

theorem hexEncode_inj_on {bs1 : List Nat} : ∀ {bs2 : List Nat}, (∀ x ∈ bs1, x < 256) →
    (∀ x ∈ bs2, x < 256) → hexEncode bs1 = hexEncode bs2 → bs1 = bs2 := by
  induction bs1 with
  | nil =>
    intro bs2 _ _ h
    cases bs2 with
    | nil => rfl
    | cons => simp [hexEncode, hexByteLower] at h
  | cons b t ih =>
    intro bs2 h1 h2 h
    cases bs2 with
    | nil => simp [hexEncode, hexByteLower] at h
    | cons b2 t2 =>
      have hc : hexLowerDigit (b / 16 % 16) :: hexLowerDigit (b % 16) :: hexEncode t
          = hexLowerDigit (b2 / 16 % 16) :: hexLowerDigit (b2 % 16) :: hexEncode t2 := h
      simp only [List.cons.injEq] at hc
      have hdiginj : ∀ a < 16, ∀ c < 16, hexLowerDigit a = hexLowerDigit c → a = c := by
        decide
      have hb : b = b2 := by
        have e1 := hdiginj _ (Nat.mod_lt _ (by norm_num)) _ (Nat.mod_lt _ (by norm_num)) hc.1
        have e2 := hdiginj _ (Nat.mod_lt _ (by norm_num)) _ (Nat.mod_lt _ (by norm_num)) hc.2.1
        have hb1 := h1 b (List.mem_cons_self _ _)
        have hb2 := h2 b2 (List.mem_cons_self _ _)
        omega
      rw [hb, ih (fun x hx => h1 x (List.mem_cons_of_mem _ hx))
        (fun x hx => h2 x (List.mem_cons_of_mem _ hx)) hc.2.2]

theorem treeChecksum_ne_of_input_ne {hash : Str → List Nat}
    (hinj : Function.Injective hash) (hlt : ∀ s, ∀ x ∈ hash s, x < 256)
    {es1 es2 : List WalkEntry} (h : checksumInput es1 ≠ checksumInput es2) :
    treeChecksum hash es1 ≠ treeChecksum hash es2 := by
  intro he
  apply h
  apply hinj
  apply hexEncode_inj_on (hlt _) (hlt _)
  exact List.append_cancel_left he

theorem addFileBytes_rel {e e2 : WalkEntry} (hr : entryRel e e2) :
    addFileBytes e2 = addFileBytes e := by
  obtain ⟨h1, h2, h3, h4, h5, h6, h7, h8, h9, hperm, hnd, hcont⟩ := hr
  have hfi : fileInfoFromHeader e2.hdr = fileInfoFromHeader e.hdr := by
    have hkeys : sortStrings (e2.hdr.xattrs.map Prod.fst)
        = sortStrings (e.hdr.xattrs.map Prod.fst) :=
      sortStrings_perm_eq (hperm.map Prod.fst)
    have hlook : ∀ k, lookupD e2.hdr.xattrs k = lookupD e.hdr.xattrs k := by
      intro k
      exact (lookupD_perm hperm.symm hnd k).symm
    simp only [fileInfoFromHeader, h1, h2, h3, h4, h5, h6, h7, h8, h9, hkeys]
    have : (fun k => (k, lookupD e2.hdr.xattrs k))
        = (fun k => (k, lookupD e.hdr.xattrs k)) := by
      funext k
      rw [hlook k]
    rw [this]
  simp only [addFileBytes, hfi, hcont]

theorem checksumInput_rel {es es2 : List WalkEntry}
    (h : List.Forall₂ entryRel es es2) : checksumInput es2 = checksumInput es := by
  induction h with
  | nil => rfl
  | @cons x y t t2 hr htail ih =>
    show addFileBytes y ++ checksumInput t2 = addFileBytes x ++ checksumInput t
    rw [addFileBytes_rel hr, ih]

theorem checksumInput_append (l1 l2 : List WalkEntry) :
    checksumInput (l1 ++ l2) = checksumInput l1 ++ checksumInput l2 := by
  simp [checksumInput]

theorem checksumInput_mode_decomp (pre post : List WalkEntry) (e : WalkEntry) (m : Nat) :
    checksumInput (pre ++ ⟨{ e.hdr with mode := m }, e.contents⟩ :: post) =
      (checksumInput pre ++ jsonFileInfoPre (fileInfoFromHeader e.hdr)) ++
      (natDec m ++ (jsonFileInfoPost (fileInfoFromHeader e.hdr) ++
        ((match e.contents with | some c => c | none => []) ++ checksumInput post))) := by
  rw [checksumInput_append]
  show checksumInput pre ++ (addFileBytes _ ++ checksumInput post) = _
  have hfi : fileInfoFromHeader { e.hdr with mode := m }
      = { fileInfoFromHeader e.hdr with mode := m } := rfl
  have hpre : jsonFileInfoPre { fileInfoFromHeader e.hdr with mode := m }
      = jsonFileInfoPre (fileInfoFromHeader e.hdr) := rfl
  have hpost : jsonFileInfoPost { fileInfoFromHeader e.hdr with mode := m }
      = jsonFileInfoPost (fileInfoFromHeader e.hdr) := rfl
  simp only [addFileBytes, jsonFileInfo, hfi, hpre, hpost, List.append_assoc]

/-- C8: the tree checksum ignores timestamps, user and group names, and the
order of xattrs, because each walked entry contributes only the normalized
json header record (name, mode, uid, gid, size, typeflag, linkname, devmajor,
devminor, xattrs sorted by name) plus regular-file contents; changing a
file's mode or its contents changes the checksum (stated for any injective
byte-valued hash, the idealization of sha256). -/
theorem C8_checksum_invariance :
    (∀ (hash : Str → List Nat) (es es2 : List WalkEntry),
      List.Forall₂ entryRel es es2 → treeChecksum hash es2 = treeChecksum hash es) ∧
    (∀ (hash : Str → List Nat), Function.Injective hash →
      (∀ s, ∀ x ∈ hash s, x < 256) →
      (∀ (pre post : List WalkEntry) (e : WalkEntry) (m2 : Nat), m2 ≠ e.hdr.mode →
        treeChecksum hash (pre ++ ⟨{ e.hdr with mode := m2 }, e.contents⟩ :: post) ≠
          treeChecksum hash (pre ++ e :: post)) ∧
      (∀ (pre post : List WalkEntry) (hdr : TarHeader) (c1 c2 : Str), c1 ≠ c2 →
        treeChecksum hash (pre ++ ⟨hdr, some c1⟩ :: post) ≠
          treeChecksum hash (pre ++ ⟨hdr, some c2⟩ :: post))) := by
  refine ⟨?hinv, ?hdiff⟩
  case hinv =>
    intro hash es es2 hrel
    unfold treeChecksum
    rw [checksumInput_rel hrel]
  case hdiff =>
    intro hash hinj hlt
    constructor
    · intro pre post e m2 hm
      apply treeChecksum_ne_of_input_ne hinj hlt
      intro he
      have he2 := he
      rw [checksumInput_mode_decomp] at he2
      have he3 : checksumInput (pre ++ e :: post) =
          (checksumInput pre ++ jsonFileInfoPre (fileInfoFromHeader e.hdr)) ++
          (natDec e.hdr.mode ++ (jsonFileInfoPost (fileInfoFromHeader e.hdr) ++
            ((match e.contents with | some c => c | none => []) ++ checksumInput post))) := by
        have := checksumInput_mode_decomp pre post e e.hdr.mode
        simpa using this
      rw [he3] at he2
      have hcl := List.append_cancel_left he2
      have hdm : natDec m2 = natDec e.hdr.mode := List.append_cancel_right hcl
      exact hm (natDec_inj hdm)
    · intro pre post hdr c1 c2 hc
      apply treeChecksum_ne_of_input_ne hinj hlt
      intro he
      rw [checksumInput_append, checksumInput_append] at he
      have he2 : (checksumInput pre ++ jsonFileInfo (fileInfoFromHeader hdr)) ++
          (c1 ++ checksumInput post) =
          (checksumInput pre ++ jsonFileInfo (fileInfoFromHeader hdr)) ++
          (c2 ++ checksumInput post) := by
        simpa [checksumInput, addFileBytes, List.append_assoc] using he
      have hcl := List.append_cancel_left he2
      exact hc (List.append_cancel_right hcl)

theorem C8_witness :
    (List.Forall₂ entryRel [e0w] [e0wr] ∧
      treeChecksum byteEncode [e0wr] = treeChecksum byteEncode [e0w]) ∧
    (Function.Injective byteEncode ∧ (∀ s, ∀ x ∈ byteEncode s, x < 256) ∧
      (3 : Nat) ≠ e0w.hdr.mode ∧
      treeChecksum byteEncode ([] ++ ⟨{ e0w.hdr with mode := 3 }, e0w.contents⟩ :: []) ≠
        treeChecksum byteEncode ([] ++ e0w :: [])) := by
  have hrel : List.Forall₂ entryRel [e0w] [e0wr] := by
    refine List.Forall₂.cons ?h List.Forall₂.nil
    exact ⟨rfl, rfl, rfl, rfl, rfl, rfl, rfl, rfl, rfl, by decide, by decide, rfl⟩
  exact ⟨⟨hrel, C8_checksum_invariance.1 byteEncode _ _ hrel⟩,
    byteEncode_inj, byteEncode_lt, by decide,
    (C8_checksum_invariance.2 byteEncode byteEncode_inj byteEncode_lt).1 [] [] e0w 3
      (by decide)⟩

/-! ## Query escaping roundtrip and path.Base -/

theorem hexVal_hexUpperDigit : ∀ m < 16, hexVal (hexUpperDigit m) = some m := by decide

theorem queryUnescape_eq (c : Char) (rest : Str) :
    QueryUnescape (c :: rest) =
      if c = '%' then
        match rest with
        | x :: y :: rest2 =>
          match hexVal x, hexVal y with
          | some a, some b => (QueryUnescape rest2).map (fun t => Char.ofNat (16 * a + b) :: t)
          | _, _ => .error .unescapeError
        | _ => .error .unescapeError
      else if c = '+' then (QueryUnescape rest).map (fun t => ' ' :: t)
      else (QueryUnescape rest).map (fun t => c :: t) := by
  match rest with
  | [] => rfl
  | [x] => rfl
  | x :: y :: r => rfl

theorem queryEscape_cons (c : Char) (t : Str) :
    QueryEscape (c :: t) = escChar c ++ QueryEscape t := rfl

theorem queryUnescape_escChar (c : Char) (hc : c.toNat < 256) (rest : Str) :
    QueryUnescape (escChar c ++ rest) = (QueryUnescape rest).map (fun t => c :: t) := by
  by_cases h1 : isEscUnreserved c = true
  · rw [escChar, if_pos h1, List.singleton_append, queryUnescape_eq,
      if_neg (by rintro rfl; exact absurd h1 (by decide)),
      if_neg (by rintro rfl; exact absurd h1 (by decide))]
  · by_cases h2 : c = ' '
    · subst h2
      rw [escChar, if_neg (by decide), if_pos (by decide), List.singleton_append,
        queryUnescape_eq, if_neg (by decide), if_pos rfl]
    · rw [escChar, if_neg h1, if_neg (by simpa using h2)]
      show QueryUnescape ('%' :: hexUpperDigit (c.toNat / 16 % 16)
        :: hexUpperDigit (c.toNat % 16) :: rest) = _
      rw [queryUnescape_eq, if_pos rfl]
      show (match hexVal (hexUpperDigit (c.toNat / 16 % 16)),
          hexVal (hexUpperDigit (c.toNat % 16)) with
        | some a, some b => (QueryUnescape rest).map (fun t => Char.ofNat (16 * a + b) :: t)
        | _, _ => .error .unescapeError) = _
      rw [hexVal_hexUpperDigit _ (Nat.mod_lt _ (by norm_num)),
        hexVal_hexUpperDigit _ (Nat.mod_lt _ (by norm_num))]
      show (QueryUnescape rest).map
        (fun t => Char.ofNat (16 * (c.toNat / 16 % 16) + c.toNat % 16) :: t) = _
      have hb : 16 * (c.toNat / 16 % 16) + c.toNat % 16 = c.toNat := by omega
      rw [hb, Char.ofNat_toNat]

theorem queryUnescape_queryEscape {s : Str} (hs : ∀ c ∈ s, c.toNat < 256) :
    QueryUnescape (QueryEscape s) = .ok s := by
  induction s with
  | nil => rfl
  | cons c t ih =>
    rw [queryEscape_cons, queryUnescape_escChar c (hs c (List.mem_cons_self _ _)),
      ih (fun x hx => hs x (List.mem_cons_of_mem _ hx))]
    rfl

theorem mem_escChar_props {x c : Char} (h : x ∈ escChar c) :
    x ≠ '/' ∧ x ≠ '&' ∧ x ≠ ';' ∧ x ≠ '=' ∧ x ≠ '?' ∧ x ≠ ',' ∧ x ≠ ':' := by
  have hhex : ∀ m < 16, hexUpperDigit m ≠ '/' ∧ hexUpperDigit m ≠ '&' ∧
      hexUpperDigit m ≠ ';' ∧ hexUpperDigit m ≠ '=' ∧ hexUpperDigit m ≠ '?' ∧
      hexUpperDigit m ≠ ',' ∧ hexUpperDigit m ≠ ':' := by decide
  by_cases h1 : isEscUnreserved c = true
  · rw [escChar, if_pos h1] at h
    rw [List.mem_singleton] at h
    subst h
    refine ⟨?s1, ?s2, ?s3, ?s4, ?s5, ?s6, ?s7⟩ <;>
      (rintro rfl; exact absurd h1 (by decide))
  · by_cases h2 : c = ' '
    · subst h2
      rw [escChar, if_neg (by decide), if_pos (by decide), List.mem_singleton] at h
      subst h
      decide
    · rw [escChar, if_neg h1, if_neg (by simpa using h2)] at h
      simp only [List.mem_cons, List.not_mem_nil, or_false] at h
      rcases h with rfl | rfl | rfl
      · decide
      · exact hhex _ (Nat.mod_lt _ (by norm_num))
      · exact hhex _ (Nat.mod_lt _ (by norm_num))

theorem mem_queryEscape_props {x : Char} {s : Str} (h : x ∈ QueryEscape s) :
    x ≠ '/' ∧ x ≠ '&' ∧ x ≠ ';' ∧ x ≠ '=' ∧ x ≠ '?' ∧ x ≠ ',' ∧ x ≠ ':' := by
  induction s with
  | nil => simp [QueryEscape] at h
  | cons c t ih =>
    rw [queryEscape_cons, List.mem_append] at h
    rcases h with h | h
    · exact mem_escChar_props h
    · exact ih h

theorem queryEscape_ne_nil {s : Str} (hs : s ≠ []) : QueryEscape s ≠ [] := by
  cases s with
  | nil => exact absurd rfl hs
  | cons c t =>
    rw [queryEscape_cons]
    intro h
    rcases List.append_eq_nil.mp h with ⟨h1, -⟩
    by_cases hu : isEscUnreserved c = true
    · rw [escChar, if_pos hu] at h1; exact List.cons_ne_nil _ _ h1
    · by_cases hsp : c = ' '
      · subst hsp; rw [escChar, if_neg (by decide), if_pos (by decide)] at h1
        exact List.cons_ne_nil _ _ h1
      · rw [escChar, if_neg hu, if_neg (by simpa using hsp)] at h1
        exact List.cons_ne_nil _ _ h1

theorem dropWhile_of_head {p : Char → Bool} {l : List Char}
    (h : l = [] ∨ ∃ z zs, l = z :: zs ∧ p z = false) : l.dropWhile p = l := by
  rcases h with rfl | ⟨z, zs, rfl, hz⟩
  · rfl
  · rw [List.dropWhile_cons, hz]
    simp

theorem pathBase_append {xs ys : Str} (hne : ys ≠ []) (hns : ∀ c ∈ ys, c ≠ '/') :
    pathBase (xs ++ '/' :: ys) = ys := by
  have hcs : xs ++ '/' :: ys ≠ [] := by simp
  rw [pathBase, if_neg hcs]
  have hrev : (xs ++ '/' :: ys).reverse = ys.reverse ++ '/' :: xs.reverse := by
    simp
  have hdrop : dropTrailingSlashes (xs ++ '/' :: ys) = xs ++ '/' :: ys := by
    rw [dropTrailingSlashes, hrev]
    have hdw : (ys.reverse ++ '/' :: xs.reverse).dropWhile (fun c => c == '/') =
        ys.reverse ++ '/' :: xs.reverse := by
      apply dropWhile_of_head
      right
      cases hys : ys.reverse with
      | nil => exact absurd (by simpa using congrArg List.reverse hys) hne
      | cons z zs =>
        refine ⟨z, zs ++ '/' :: xs.reverse, by rw [List.cons_append], ?hz⟩
        have hmem : z ∈ ys := by
          rw [← List.mem_reverse, hys]
          exact List.mem_cons_self _ _
        simpa using hns z hmem
    rw [hdw, ← hrev, List.reverse_reverse]
  rw [hdrop, if_neg hcs, lastSegment, hrev]
  rw [takeWhile_append_stop (fun c hc => ?hc) (by simp)]
  · exact List.reverse_reverse ys
  case hc =>
    have : c ∈ ys := List.mem_reverse.mp hc
    simpa using hns c this

/-! ## Ref-bucket well-formedness and the SetRef read-back roundtrip -/

theorem mem_kvPut_self {α : Type} (b : List (Str × α)) (k : Str) (v : α) :
    (k, v) ∈ kvPut b k v := by
  induction b with
  | nil => exact List.mem_singleton.mpr rfl
  | cons e t ih =>
    rw [kvPut_cons]
    by_cases he : e.1 = k
    · rw [if_pos he]; exact List.mem_cons_self _ _
    · rw [if_neg he]; exact List.mem_cons_of_mem _ ih

theorem mem_kvPut_of_ne {α : Type} {b : List (Str × α)} {e : Str × α} {k : Str} {v : α}
    (hmem : e ∈ b) (hne : e.1 ≠ k) : e ∈ kvPut b k v := by
  induction b with
  | nil => exact absurd hmem (List.not_mem_nil e)
  | cons e2 t ih =>
    rw [kvPut_cons]
    by_cases he : e2.1 = k
    · rw [if_pos he]
      rcases List.mem_cons.mp hmem with rfl | hmem2
      · exact absurd he hne
      · exact List.mem_cons_of_mem _ hmem2
    · rw [if_neg he]
      rcases List.mem_cons.mp hmem with rfl | hmem2
      · exact List.mem_cons_self _ _
      · exact List.mem_cons_of_mem _ (ih hmem2)

theorem mapM_ok_exists {α β : Type} (l : List α) (f : α → Except Err β)
    (h : ∀ e ∈ l, ∃ y, f e = .ok y) :
    ∃ out, l.mapM f = .ok out ∧ ∀ e ∈ l, ∀ y, f e = .ok y → y ∈ out := by
  induction l with
  | nil => exact ⟨[], rfl, fun e he => absurd he (List.not_mem_nil e)⟩
  | cons e t ih =>
    obtain ⟨y, hy⟩ := h e (List.mem_cons_self _ _)
    obtain ⟨out, hout, hmem⟩ := ih (fun x hx => h x (List.mem_cons_of_mem _ hx))
    refine ⟨y :: out, ?p1, ?p2⟩
    case p1 => rw [List.mapM_cons, hy, hout]; rfl
    case p2 =>
      intro e2 he2 y2 hy2
      rcases List.mem_cons.mp he2 with rfl | he2
      · rw [hy] at hy2
        exact List.mem_cons.mpr (.inl (Except.ok.inj hy2).symm)
      · exact List.mem_cons_of_mem _ (hmem e2 he2 y2 hy2)

theorem id_key_notPre_digest (x : Str) :
    (toChars "id/").isPrefixOf (toChars "digest/" ++ x) = false := rfl

theorem digest_key_notPre_id (x y : Str) :
    (toChars "digest/" ++ x).isPrefixOf (toChars "id/" ++ y) = false := rfl

theorem id_digest_key_ne (x y : Str) : toChars "id/" ++ x ≠ toChars "digest/" ++ y := by
  intro h
  have h0 := id_key_notPre_digest y
  rw [← h] at h0
  have h1 : (toChars "id/").isPrefixOf (toChars "id/" ++ x) = true := by
    rw [List.isPrefixOf_iff_prefix]
    exact List.prefix_append _ _
  rw [h0] at h1
  exact Bool.false_ne_true h1

theorem refIDKey_inj {a b : Str} (h : refIDKey a = refIDKey b) : a = b :=
  List.append_cancel_left h

/-- C10: for every nonempty byte-string ref id — including ids containing '/',
'?', '&', '=' or other URI-reserved characters — writing the ref with SetRef
and then reading it back through GetRef, GetAllRefs or GetRefsByDigest returns
the id byte-identical to the one written: the id is percent-encoded inside the
secondary key digest/<digest>/<id> and decoded again on prefix scan, so a '/'
inside an id never splits or corrupts a key.  (The original claim's "every ref
id string" fails for the empty id, which panics on read-back.) -/
theorem C10_ref_roundtrip_amended
    (s : CasState) (id inD d : Str)
    (hwf : WFRefBucket s.refB)
    (hid1 : id ≠ []) (hid2 : ∀ c ∈ id, c.toNat < 256)
    (hres : ResolveDigest s inD = .ok d)
    (hhb : HasBlob s d = .ok true)
    (hd1 : d.contains '/' = false) (hd2 : d ≠ []) :
    ∃ s2 : CasState,
      SetRef s id inD = (.ok (), s2) ∧
      GetRef s2 id = .ok (some ⟨id, d⟩) ∧
      (∃ l, GetAllRefs s2 = .ok l ∧ (⟨id, d⟩ : Ref) ∈ l) ∧
      (∃ l2, GetRefsByDigest s2 d = .ok l2 ∧ (⟨id, d⟩ : Ref) ∈ l2) := by
  obtain ⟨hnd, hwfe⟩ := hwf
  set kp : Str := refIDKey id with hkp
  set k2v : Str := toChars "digest/" ++ d ++ '/' :: QueryEscape id with hk2v
  set b2 : Bucket := kvPut (kvPut s.refB kp (Val.refv ⟨id, d⟩)) k2v Val.nilv with hb2
  have hk2 : refDigestIDKey d id = .ok k2v := by
    rw [refDigestIDKey, if_neg (by rw [hd1]; exact Bool.false_ne_true), if_neg hd2]
  have hwr : writeRef s.refB ⟨id, d⟩ = .ok b2 := by
    rw [writeRef]
    show refDigestIDKey d id >>= _ = _
    rw [hk2, bind_ok_eq]
    rfl
  have hkpne : kp ≠ k2v := by
    rw [hkp, hk2v, refIDKey]
    exact id_digest_key_ne id (d ++ '/' :: QueryEscape id)
  have hset : SetRef s id inD = (.ok (), { s with refB := b2 }) := by
    simp only [SetRef, hres, hhb, hwr]
  have hgetid : getRef b2 id = .ok (some ⟨id, d⟩) := by
    have h1 : kvGet b2 kp = some (Val.refv ⟨id, d⟩) := by
      rw [hb2, kvGet_put_other _ k2v kp Val.nilv hkpne, kvGet_put_self]
    rw [getRef]
    show (match bGet b2 (refIDKey id) with
      | none => Except.ok none
      | some (.refv r) => Except.ok (some r)
      | some _ => Except.error Err.unmarshalError) = _
    rw [bGet, ← hkp, h1]
  refine ⟨{ s with refB := b2 }, hset, hgetid, ?all, ?bydig⟩
  case all =>
    have hpre0 : refIDKey ([] : Str) = toChars "id/" := by simp [refIDKey]
    have hok : ∀ e ∈ scanPre b2 (toChars "id/"),
        ∃ y, (match e.2 with
          | Val.refv r => Except.ok r
          | _ => Except.error Err.unmarshalError) = .ok y := by
      intro e he
      obtain ⟨hmem, hpfx⟩ := List.mem_filter.mp he
      rcases mem_kvPut_sub hmem with rfl | hmem2
      · rw [hk2v] at hpfx
        rw [show ((toChars "id/").isPrefixOf
            (toChars "digest/" ++ d ++ '/' :: QueryEscape id, Val.nilv).1) = false from
          id_key_notPre_digest _] at hpfx
        exact absurd hpfx (by simp)
      · rcases mem_kvPut_sub hmem2 with rfl | hmem3
        · exact ⟨⟨id, d⟩, rfl⟩
        · obtain ⟨r, hr, -⟩ := (hwfe e hmem3).1 hpfx
          exact ⟨r, by rw [hr]⟩
    obtain ⟨out, hout, hmemout⟩ := mapM_ok_exists _ _ hok
    refine ⟨out, ?goa, ?gmem⟩
    case goa =>
      show getAllRefs b2 = .ok out
      rw [getAllRefs, hpre0]
      exact hout
    case gmem =>
      have hinb2 : (kp, Val.refv (⟨id, d⟩ : Ref)) ∈ b2 := by
        rw [hb2]
        exact mem_kvPut_of_ne (mem_kvPut_self _ _ _) hkpne
      have hinscan : (kp, Val.refv (⟨id, d⟩ : Ref)) ∈ scanPre b2 (toChars "id/") := by
        refine List.mem_filter.mpr ⟨hinb2, ?pp⟩
        have : (toChars "id/").isPrefixOf kp = true := by
          rw [hkp, refIDKey, List.isPrefixOf_iff_prefix]
          exact List.prefix_append _ _
        simpa using this
      exact hmemout _ hinscan _ rfl
  case bydig =>
    set pre : Str := toChars "digest/" ++ d ++ '/' :: ([] : Str) with hpredef
    have hpre : refDigestIDKey d ([] : Str) = .ok pre := by
      rw [refDigestIDKey, if_neg (by rw [hd1]; exact Bool.false_ne_true), if_neg hd2]
      rfl
    have hk2shape : k2v = (toChars "digest/" ++ d) ++ '/' :: QueryEscape id := by
      rw [hk2v, List.append_assoc]
    have hk2pre : k2v = pre ++ QueryEscape id := by
      rw [hk2v, hpredef]
      simp [List.append_assoc]
    have hgk2 : QueryUnescape (pathBase k2v) = .ok id := by
      rw [hk2shape, pathBase_append (queryEscape_ne_nil hid1)
        (fun c hc => (mem_queryEscape_props hc).1)]
      exact queryUnescape_queryEscape hid2
    have hfun : ∀ e ∈ scanPre b2 pre,
        ∃ y, (do
          let i ← QueryUnescape (pathBase e.1)
          match ← getRef b2 i with
          | none => Except.error Err.missingEntryPanic
          | some r => Except.ok r) = .ok y := by
      intro e he
      obtain ⟨hmem, hpfx⟩ := List.mem_filter.mp he
      rcases mem_kvPut_sub hmem with rfl | hmem2
      · refine ⟨⟨id, d⟩, ?fe⟩
        show QueryUnescape (pathBase k2v) >>= _ = _
        rw [hgk2, bind_ok_eq]
        show getRef b2 id >>= _ = _
        rw [hgetid, bind_ok_eq]
      · rcases mem_kvPut_sub hmem2 with rfl | hmem3
        · rw [hpredef] at hpfx
          rw [show ((toChars "digest/" ++ d ++ '/' :: ([] : Str)).isPrefixOf
              (kp, Val.refv (⟨id, d⟩ : Ref)).1) = false from by
            rw [hkp, refIDKey]
            exact digest_key_notPre_id (d ++ '/' :: []) id] at hpfx
          exact absurd hpfx (by simp)
        · have hdp : (toChars "digest/").isPrefixOf e.1 = true := by
            rw [List.isPrefixOf_iff_prefix]
            have hp2 : List.IsPrefix pre e.1 := by
              rw [← List.isPrefixOf_iff_prefix]
              simpa using hpfx
            have hp1 : List.IsPrefix (toChars "digest/") pre := by
              rw [hpredef]
              exact List.prefix_append (toChars "digest/") (d ++ ['/'])
            exact hp1.trans hp2
          obtain ⟨rid, hrid1, hrid2, hrpb, r2, hr2⟩ := (hwfe e hmem3).2 hdp
          by_cases hreq : rid = id
          · refine ⟨⟨id, d⟩, ?fe2⟩
            show QueryUnescape (pathBase e.1) >>= _ = _
            rw [hrpb, hreq, queryUnescape_queryEscape hid2, bind_ok_eq]
            show getRef b2 id >>= _ = _
            rw [hgetid, bind_ok_eq]
          · refine ⟨r2, ?fe3⟩
            show QueryUnescape (pathBase e.1) >>= _ = _
            rw [hrpb, queryUnescape_queryEscape hrid2, bind_ok_eq]
            have hgr : getRef b2 rid = getRef s.refB rid := by
              rw [getRef, getRef]
              have hkv : kvGet b2 (refIDKey rid) = kvGet s.refB (refIDKey rid) := by
                rw [hb2, kvGet_put_other _ k2v _ Val.nilv
                    (by rw [hk2v, refIDKey]
                        exact id_digest_key_ne rid (d ++ '/' :: QueryEscape id)),
                  kvGet_put_other _ kp _ _ (by
                    rw [hkp]
                    exact fun hcon => hreq (refIDKey_inj hcon))]
              show (match bGet b2 (refIDKey rid) with
                | none => Except.ok none
                | some (.refv r) => Except.ok (some r)
                | some _ => Except.error Err.unmarshalError) = _
              rw [bGet, bGet, hkv]
            show getRef b2 rid >>= _ = _
            rw [hgr, hr2, bind_ok_eq]
    obtain ⟨out2, hout2, hmemout2⟩ := mapM_ok_exists _ _ hfun
    refine ⟨out2, ?gbd, ?gmem2⟩
    case gbd =>
      show getRefsByDigest b2 d = .ok out2
      rw [getRefsByDigest]
      show refDigestIDKey d [] >>= _ = _
      rw [hpre, bind_ok_eq]
      exact hout2
    case gmem2 =>
      have hinb2 : (k2v, Val.nilv) ∈ b2 := by
        rw [hb2]
        exact mem_kvPut_self _ _ _
      have hinscan : (k2v, Val.nilv) ∈ scanPre b2 pre := by
        refine List.mem_filter.mpr ⟨hinb2, ?pp2⟩
        have : pre.isPrefixOf k2v = true := by
          rw [List.isPrefixOf_iff_prefix, hk2pre]
          exact List.prefix_append _ _
        simpa using this
      refine hmemout2 _ hinscan _ ?fk2
      show QueryUnescape (pathBase k2v) >>= _ = _
      rw [hgk2, bind_ok_eq]
      show getRef b2 id >>= _ = _
      rw [hgetid, bind_ok_eq]

/-- C10 counterexample: the claim quantifies over every ref id string; with the
empty id, SetRef succeeds, but the secondary key digest/<digest>/ ends in a
slash, path.Base strips it and yields the digest instead of the id, and the
read-back panics on the missing primary row for that digest. -/
theorem C10_counterexample :
    (SetRef sAB [] dA).1 = .ok () ∧
    GetRefsByDigest (SetRef sAB [] dA).2 dA = .error .missingEntryPanic := by decide

/-- Closed instance of the amended C10 roundtrip at a concrete two-blob store
and the slash-containing id "r/1". -/
theorem C10_witness :
    WFRefBucket sAB.refB ∧ toChars "r/1" ≠ [] ∧ (∀ c ∈ toChars "r/1", c.toNat < 256) ∧
    ResolveDigest sAB dA = .ok dA ∧ HasBlob sAB dA = .ok true ∧
    dA.contains '/' = false ∧ dA ≠ [] ∧
    (∃ s2 : CasState,
      SetRef sAB (toChars "r/1") dA = (.ok (), s2) ∧
      GetRef s2 (toChars "r/1") = .ok (some ⟨toChars "r/1", dA⟩) ∧
      (∃ l, GetAllRefs s2 = .ok l ∧ (⟨toChars "r/1", dA⟩ : Ref) ∈ l) ∧
      (∃ l2, GetRefsByDigest s2 dA = .ok l2 ∧ (⟨toChars "r/1", dA⟩ : Ref) ∈ l2)) :=
  ⟨⟨List.nodup_nil, fun e he => absurd he (List.not_mem_nil e)⟩,
   by decide, by decide, by decide, by decide, by decide, by decide,
   C10_ref_roundtrip_amended sAB (toChars "r/1") dA dA
     ⟨List.nodup_nil, fun e he => absurd he (List.not_mem_nil e)⟩
     (by decide) (by decide) (by decide) (by decide) (by decide) (by decide)⟩

/-- C4: the claim says GetACI(name, labels) returns (digest, nil) when a ref
whose id is the canonical appc URI for the name and labels exists, and
ACINotFound when no ref matches.  In the code, after a successful ref lookup
both branches of the empty-digest test return ACINotFoundError — the digest is
never returned — and when no ref matches, the nil Ref pointer is dereferenced
(a panic) instead of reporting ACINotFound: at a store holding the matching
ref "cimd:appc:v=0:ex.com/a" for blob dA, GetACI still fails with ACINotFound,
and at the same store without the ref it panics. -/
theorem C4_getACI_never_returns_digest :
    GetRef sRef1 refIdA = .ok (some ⟨refIdA, dA⟩) ∧
    GetACI sRef1 (toChars "ex.com/a") [] = .error .aciNotFound ∧
    GetACI sAB (toChars "ex.com/a") [] = .error .nilDerefPanic := by decide

/-! ## Splitting and joining lemmas for the canonicalization pipeline -/

theorem joinSep_cons₂ (sep : Char) (p q : Str) (ps : List Str) :
    joinSep sep (p :: q :: ps) = p ++ sep :: joinSep sep (q :: ps) := by
  simp [joinSep]

theorem splitSepP_no_sep {isSep : Char → Bool} {p : Str}
    (h : ∀ c ∈ p, isSep c = false) : splitSepP isSep p = [p] := by
  induction p with
  | nil => rfl
  | cons c t ih =>
    rw [splitSepP, if_neg (by simp [h c (List.mem_cons_self _ _)]),
      ih (fun c2 hc => h c2 (List.mem_cons_of_mem _ hc))]

theorem splitSepP_append_sep {isSep : Char → Bool} {p : Str} {sep : Char} (t : Str)
    (hp : ∀ c ∈ p, isSep c = false) (hsep : isSep sep = true) :
    splitSepP isSep (p ++ sep :: t) = p :: splitSepP isSep t := by
  induction p with
  | nil =>
    rw [List.nil_append, splitSepP, if_pos hsep]
  | cons c p2 ih =>
    rw [List.cons_append, splitSepP, if_neg (by simp [hp c (List.mem_cons_self _ _)]),
      ih (fun c2 hc => hp c2 (List.mem_cons_of_mem _ hc))]

theorem splitSepP_joinSep {isSep : Char → Bool} {sep : Char} (hsep : isSep sep = true)
    {ps : List Str} (hfree : ∀ p ∈ ps, ∀ c ∈ p, isSep c = false) (hne : ps ≠ []) :
    splitSepP isSep (joinSep sep ps) = ps := by
  induction ps with
  | nil => exact absurd rfl hne
  | cons p t ih =>
    cases t with
    | nil =>
      show splitSepP isSep (joinSep sep [p]) = [p]
      have : joinSep sep [p] = p := by simp [joinSep]
      rw [this]
      exact splitSepP_no_sep (hfree p (List.mem_cons_self _ _))
    | cons q t2 =>
      rw [joinSep_cons₂,
        splitSepP_append_sep _ (hfree p (List.mem_cons_self _ _)) hsep,
        ih (fun p2 hp2 => hfree p2 (List.mem_cons_of_mem _ hp2)) (List.cons_ne_nil _ _)]

theorem mem_joinSep {c : Char} {sep : Char} {ps : List Str}
    (h : c ∈ joinSep sep ps) : c = sep ∨ ∃ p ∈ ps, c ∈ p := by
  induction ps with
  | nil => simp [joinSep] at h
  | cons p t ih =>
    cases t with
    | nil =>
      right
      refine ⟨p, List.mem_cons_self _ _, ?hp⟩
      simpa [joinSep] using h
    | cons q t2 =>
      rw [joinSep_cons₂, List.mem_append, List.mem_cons] at h
      rcases h with h | h | h
      · exact .inr ⟨p, List.mem_cons_self _ _, h⟩
      · exact .inl h
      · rcases ih h with h2 | ⟨p2, hp2, hc⟩
        · exact .inl h2
        · exact .inr ⟨p2, List.mem_cons_of_mem _ hp2, hc⟩

theorem splitAtFirst_no_sep {sep : Char} {s : Str} (h : ∀ c ∈ s, c ≠ sep) :
    splitAtFirst sep s = (s, none) := by
  induction s with
  | nil => rfl
  | cons c t ih =>
    rw [splitAtFirst, if_neg (h c (List.mem_cons_self _ _)),
      ih (fun c2 hc => h c2 (List.mem_cons_of_mem _ hc))]

theorem splitAtFirst_append {sep : Char} {k : Str} (t : Str)
    (hk : ∀ c ∈ k, c ≠ sep) : splitAtFirst sep (k ++ sep :: t) = (k, some t) := by
  induction k with
  | nil => rw [List.nil_append, splitAtFirst, if_pos rfl]
  | cons c k2 ih =>
    rw [List.cons_append, splitAtFirst, if_neg (hk c (List.mem_cons_self _ _)),
      ih (fun c2 hc => hk c2 (List.mem_cons_of_mem _ hc))]

theorem queryUnescape_plain {s : Str} (h : ∀ c ∈ s, c ≠ '%' ∧ c ≠ '+') :
    QueryUnescape s = .ok s := by
  induction s with
  | nil => rfl
  | cons c t ih =>
    rw [queryUnescape_eq, if_neg (h c (List.mem_cons_self _ _)).1,
      if_neg (h c (List.mem_cons_self _ _)).2,
      ih (fun c2 hc => h c2 (List.mem_cons_of_mem _ hc))]
    rfl

theorem idxOf_none {x : Char} {s : Str} (h : ∀ c ∈ s, c ≠ x) : idxOf x s = none := by
  induction s with
  | nil => rfl
  | cons c t ih =>
    rw [idxOf, if_neg (h c (List.mem_cons_self _ _)),
      ih (fun c2 hc => h c2 (List.mem_cons_of_mem _ hc))]
    rfl

theorem colonAfterComma_of_no_colon {s : Str} (h : ∀ c ∈ s, c ≠ ':') :
    colonAfterComma s = false := by
  rw [colonAfterComma, idxOf_none h]
  cases idxOf ',' s <;> rfl

theorem replaceColonVersion_of_no_colon {s : Str} (h : ∀ c ∈ s, c ≠ ':') :
    replaceColonVersion s = s := by
  induction s with
  | nil => rfl
  | cons c t ih =>
    rw [replaceColonVersion, if_neg (h c (List.mem_cons_self _ _)),
      ih (fun c2 hc => h c2 (List.mem_cons_of_mem _ hc))]

/-! ## AC identifier character facts -/

theorem acIdRest_eq (c : Char) (rest : Str) :
    acIdRest (c :: rest) =
      if isLowerAlnum c then acIdRest rest
      else if isACIdSep c then
        match rest with
        | [] => false
        | c2 :: rest2 => isLowerAlnum c2 && acIdRest rest2
      else false := by
  cases rest <;> rfl

theorem acIdRest_chars {k : Str} (h : acIdRest k = true) :
    ∀ c ∈ k, isLowerAlnum c = true ∨ isACIdSep c = true := by
  induction k with
  | nil => intro c hc; exact absurd hc (List.not_mem_nil c)
  | cons c t ih =>
    intro c2 hc2
    rw [acIdRest_eq] at h
    by_cases h1 : isLowerAlnum c = true
    · rw [if_pos h1] at h
      rcases List.mem_cons.mp hc2 with rfl | hc2
      · exact .inl h1
      · exact ih h c2 hc2
    · rw [if_neg h1] at h
      by_cases h2 : isACIdSep c = true
      · rw [if_pos h2] at h
        rcases List.mem_cons.mp hc2 with rfl | hc2
        · exact .inr h2
        · cases t with
          | nil => exact absurd h (by simp)
          | cons c3 t2 =>
            rw [Bool.and_eq_true] at h
            rcases List.mem_cons.mp hc2 with rfl | hc3
            · exact .inl h.1
            · refine ih ?h3 c2 ?h4
              · cases t2 with
                | nil => rw [acIdRest_eq, if_pos h.1]; exact h.2
                | cons c4 t3 => rw [acIdRest_eq, if_pos h.1]; exact h.2
              · exact List.mem_cons_of_mem _ hc3
      · rw [if_neg h2] at h
        exact absurd h (by simp)

theorem validACId_chars {k : Str} (h : isValidACId k = true) :
    ∀ c ∈ k, isLowerAlnum c = true ∨ isACIdSep c = true := by
  cases k with
  | nil => intro c hc; exact absurd hc (List.not_mem_nil c)
  | cons c t =>
    rw [isValidACId, Bool.and_eq_true] at h
    intro c2 hc2
    rcases List.mem_cons.mp hc2 with rfl | hc2
    · exact .inl h.1
    · exact acIdRest_chars h.2 c2 hc2

theorem validACId_no_special {k : Str} (h : isValidACId k = true) :
    ∀ c ∈ k, c ≠ '%' ∧ c ≠ '+' ∧ c ≠ '=' ∧ c ≠ '&' ∧ c ≠ ';' ∧ c ≠ ',' ∧ c ≠ ':' ∧
      c ≠ '?' := by
  intro c hc
  have hcl := validACId_chars h c hc
  refine ⟨?q1, ?q2, ?q3, ?q4, ?q5, ?q6, ?q7, ?q8⟩ <;>
    (rintro rfl; revert hcl; decide)

theorem validACId_ne_nil {k : Str} (h : isValidACId k = true) : k ≠ [] := by
  cases k with
  | nil => exact absurd h (by decide)
  | cons c t => exact List.cons_ne_nil _ _

theorem validACId_bytes {k : Str} (h : isValidACId k = true) :
    ∀ c ∈ k, c.toNat < 256 := by
  intro c hc
  rcases validACId_chars h c hc with h2 | h2
  · rw [isLowerAlnum, Bool.or_eq_true] at h2
    rcases h2 with h2 | h2
    · rw [Bool.and_eq_true, decide_eq_true_iff, decide_eq_true_iff] at h2
      have h3 : c.val.toNat ≤ ('z' : Char).val.toNat := Char.le_def.mp h2.2
      have h4 : ('z' : Char).val.toNat = 122 := rfl
      have h5 : c.toNat = c.val.toNat := rfl
      omega
    · rw [Char.isDigit] at h2
      have h1 := (Bool.and_eq_true _ _).mp h2
      have h3 : c.val.toNat ≤ (57 : UInt32).toNat := by
        have := h1.2
        simp [decide_eq_true_iff] at this
        exact this
      have h4 : (57 : UInt32).toNat = 57 := rfl
      have h5 : c.toNat = c.val.toNat := rfl
      omega
  · rw [isACIdSep] at h2
    simp only [Bool.or_eq_true, beq_iff_eq] at h2
    rcases h2 with ((((rfl | rfl) | rfl) | rfl) | rfl) <;> decide

/-! ## Parsing back the canonical query -/

theorem parsePiece_label {k v : Str} (hk : isValidACId k = true)
    (hv : ∀ c ∈ v, c.toNat < 256) :
    parsePiece (k ++ '=' :: QueryEscape v) = some (k, v) := by
  have hkne : k ++ '=' :: QueryEscape v ≠ [] := by
    cases k <;> simp
  rw [parsePiece, if_neg hkne,
    splitAtFirst_append _ (fun c hc => (validACId_no_special hk c hc).2.2.1)]
  show (match QueryUnescape k, QueryUnescape (QueryEscape v) with
    | .ok k2, .ok v2 => some (k2, v2)
    | _, _ => none) = _
  rw [queryUnescape_plain (fun c hc => ⟨(validACId_no_special hk c hc).1,
      (validACId_no_special hk c hc).2.1⟩),
    queryUnescape_queryEscape hv]

theorem filterMap_eq_self {α : Type} {l : List α} {g : α → Option α}
    (h : ∀ x ∈ l, g x = some x) : l.filterMap g = l := by
  induction l with
  | nil => rfl
  | cons x t ih =>
    rw [List.filterMap_cons, h x (List.mem_cons_self _ _),
      ih (fun x2 hx => h x2 (List.mem_cons_of_mem _ hx))]

theorem parseQuery_join (labels : List (Str × Str)) (hne : labels ≠ [])
    (hk : ∀ l ∈ labels, isValidACId l.1 = true)
    (hv : ∀ l ∈ labels, ∀ c ∈ l.2, c.toNat < 256) :
    parseQuery (joinSep '&' (labels.map (fun l => l.1 ++ '=' :: QueryEscape l.2))) =
      labels := by
  rw [parseQuery, splitSepP_joinSep (by decide) ?hfree ?hne2]
  case hne2 => simpa using hne
  case hfree =>
    intro p hp c hc
    obtain ⟨l, hl, rfl⟩ := List.mem_map.mp hp
    rw [List.mem_append, List.mem_cons] at hc
    have hq : c ≠ '&' ∧ c ≠ ';' → isQuerySep c = false := by
      intro hcc
      rw [isQuerySep]
      simp [hcc.1, hcc.2]
    rcases hc with hc | rfl | hc
    · exact hq ⟨(validACId_no_special (hk l hl) c hc).2.2.2.1,
        (validACId_no_special (hk l hl) c hc).2.2.2.2.1⟩
    · rfl
    · exact hq ⟨(mem_queryEscape_props hc).2.1, (mem_queryEscape_props hc).2.2.1⟩
  rw [List.filterMap_map]
  refine filterMap_eq_self ?hall
  intro l hl
  exact parsePiece_label (hk l hl) (hv l hl)

theorem queryValues_nodup : ∀ (labels : List (Str × Str)),
    (labels.map Prod.fst).Nodup →
    ∀ k ∈ labels.map Prod.fst, queryValues labels k = [lookupD labels k] := by
  intro labels
  induction labels with
  | nil => intro _ k hk; exact absurd hk (List.not_mem_nil k)
  | cons e t ih =>
    intro hnd k hk
    rw [List.map_cons] at hnd
    have hnd2 := List.nodup_cons.mp hnd
    by_cases he : e.1 = k
    · have hfilt : t.filter (fun e2 => e2.1 == k) = [] := by
        rw [List.filter_eq_nil_iff]
        intro e2 he2
        simp only [beq_iff_eq]
        intro hcon
        exact hnd2.1 (he ▸ hcon ▸ List.mem_map_of_mem Prod.fst he2)
      rw [queryValues, List.filter_cons, if_pos (by simp [he]), List.map_cons, hfilt,
        lookupD]
      rw [List.find?_cons_of_pos _ (by simp [he])]
      rfl
    · have hk2 : k ∈ t.map Prod.fst := by
        rcases List.mem_cons.mp hk with h | h
        · exact absurd h.symm he
        · exact h
      rw [queryValues, List.filter_cons, if_neg (by simp [he]), lookupD,
        List.find?_cons_of_neg _ (by simp [he])]
      have := ih hnd2.2 k hk2
      rw [queryValues] at this
      rw [this, lookupD]

theorem lookupD_map_self {ks : List Str} {f : Str → Str} {k : Str} (hk : k ∈ ks) :
    lookupD (ks.map (fun k2 => (k2, f k2))) k = f k := by
  induction ks with
  | nil => exact absurd hk (List.not_mem_nil k)
  | cons k2 t ih =>
    by_cases he : k2 = k
    · subst he
      rw [List.map_cons, lookupD, List.find?_cons_of_pos _ (by simp)]
    · rw [List.map_cons, lookupD, List.find?_cons_of_neg _ (by simp [he])]
      have hk2 : k ∈ t := by
        rcases List.mem_cons.mp hk with h | h
        · exact absurd h.symm he
        · exact h
      have := ih hk2
      rw [lookupD] at this
      exact this

theorem lookupD_mem {labels : List (Str × Str)} {k : Str}
    (hk : k ∈ labels.map Prod.fst) : (k, lookupD labels k) ∈ labels := by
  induction labels with
  | nil => exact absurd hk (List.not_mem_nil k)
  | cons e t ih =>
    by_cases he : e.1 = k
    · rw [lookupD, List.find?_cons_of_pos _ (by simp [he])]
      have : e = (k, e.2) := by rw [← he]
      rw [← this]
      exact List.mem_cons_self _ _
    · rw [lookupD, List.find?_cons_of_neg _ (by simp [he])]
      have hk2 : k ∈ t.map Prod.fst := by
        rcases List.mem_cons.mp hk with h | h
        · exact absurd h.symm he
        · exact h
      have := ih hk2
      rw [lookupD] at this
      exact List.mem_cons_of_mem _ this

/-! ## The canonical form of NewAppcFromApp -/

theorem parseQuery_nil : parseQuery [] = [] := rfl

theorem flatten_map_singleton {α β : Type} (l : List α) (g : α → β) :
    (l.map (fun x => [g x])).flatten = l.map g := by
  induction l with
  | nil => rfl
  | cons x t ih => simp [ih]

theorem mem_sortStrings {k : Str} {l : List Str} : k ∈ sortStrings l ↔ k ∈ l :=
  (List.perm_insertionSort SLe l).mem_iff

theorem nodup_sortStrings {l : List Str} (h : l.Nodup) : (sortStrings l).Nodup :=
  ((List.perm_insertionSort SLe l).nodup_iff).mpr h

theorem sortStrings_idem (l : List Str) : sortStrings (sortStrings l) = sortStrings l :=
  List.eq_of_perm_of_sorted (List.perm_insertionSort SLe (sortStrings l))
    (List.sorted_insertionSort SLe (sortStrings l)) (List.sorted_insertionSort SLe l)

theorem newAppcFromApp_eq (a : App)
    (hnd : (a.labels.map Prod.fst).Nodup)
    (hk : ∀ l ∈ a.labels, isValidACId l.1 = true)
    (hv : ∀ l ∈ a.labels, ∀ c ∈ l.2, c.toNat < 256) :
    NewAppcFromApp a =
      ⟨toChars "cimd", toChars "appc:v=0:" ++ a.name, canonQuery a.labels⟩ := by
  by_cases hl : a.labels = []
  · rw [NewAppcFromApp, if_pos hl, canonQuery, if_pos hl]
    rfl
  · have hq := parseQuery_join a.labels hl hk hv
    rw [NewAppcFromApp, if_neg hl]
    simp only [sortQueryU]
    rw [hq, if_neg hl, canonQuery, if_neg hl]
    congr 1
    rw [List.Nodup.dedup hnd]
    congr 1
    rw [← flatten_map_singleton (sortStrings (a.labels.map Prod.fst))
      (fun k => k ++ '=' :: QueryEscape (lookupD a.labels k))]
    congr 1
    refine List.map_congr_left ?hpt
    intro k hkmem
    rw [queryValues_nodup a.labels hnd k (mem_sortStrings.mp hkmem)]
    rfl

theorem canonQuery_perm {l1 l2 : List (Str × Str)} (h : List.Perm l1 l2)
    (hnd : (l1.map Prod.fst).Nodup) : canonQuery l1 = canonQuery l2 := by
  by_cases hl : l1 = []
  · subst hl
    rw [← h.nil_eq]
  · have hl2 : l2 ≠ [] := by
      intro he
      rw [he] at h
      exact hl h.eq_nil
    rw [canonQuery, canonQuery, if_neg hl, if_neg hl2]
    have hkeys : sortStrings ((l1.map Prod.fst).dedup) =
        sortStrings ((l2.map Prod.fst).dedup) :=
      sortStrings_perm_eq ((h.map Prod.fst).dedup)
    rw [← hkeys]
    congr 1
    refine List.map_congr_left ?hpt
    intro k hkmem
    rw [lookupD_perm h hnd k]

theorem urlParse_urlString (u : URLO) (hs : ∀ c ∈ u.scheme, c ≠ ':')
    (hop : ∀ c ∈ u.opq, c ≠ '?') :
    urlParse (urlString u) = u := by
  obtain ⟨us, uo, ur⟩ := u
  have hs2 : ∀ c ∈ us, c ≠ ':' := hs
  have hop2 : ∀ c ∈ uo, c ≠ '?' := hop
  by_cases hrq : ur = []
  · subst hrq
    show urlParse (us ++ ':' :: uo ++ (if ([] : Str) = [] then [] else '?' :: [])) = _
    rw [if_pos rfl, List.append_nil]
    simp only [urlParse, List.cons_append, List.append_assoc,
      splitAtFirst_append uo hs2, splitAtFirst_no_sep hop2]
  · show urlParse (us ++ ':' :: uo ++ (if ur = [] then [] else '?' :: ur)) = _
    rw [if_neg hrq]
    simp only [urlParse, List.cons_append, List.append_assoc,
      splitAtFirst_append (uo ++ '?' :: ur) hs2, splitAtFirst_append ur hop2]

theorem parseDist_canon (name rq : Str) :
    ParseDist ⟨toChars "cimd", toChars "appc:v=0:" ++ name, rq⟩ =
      .ok ⟨toChars "appc", 0, name⟩ := rfl

theorem mapM_map_ok {α β γ : Type} (l : List α) (h : α → β) (f : β → Except Err γ)
    (g : α → γ) (hfg : ∀ x ∈ l, f (h x) = .ok (g x)) :
    (l.map h).mapM f = .ok (l.map g) := by
  induction l with
  | nil => rfl
  | cons x t ih =>
    rw [List.map_cons, List.mapM_cons, hfg x (List.mem_cons_self _ _),
      ih (fun y hy => hfg y (List.mem_cons_of_mem _ hy))]
    rfl

theorem append_flatten_joinSep (name : Str) {α : Type} (ks : List α) (g : α → Str) :
    name ++ (ks.map (fun k => ',' :: g k)).flatten = joinSep ',' (name :: ks.map g) := by
  rw [joinSep, List.map_map]
  rfl

theorem newAppFromString_canon (name : Str) (pairs : List (Str × Str))
    (hn : isValidACId name = true)
    (hk : ∀ l ∈ pairs, isValidACId l.1 = true)
    (hnd : (pairs.map Prod.fst).Nodup)
    (hv : ∀ l ∈ pairs, ∀ c ∈ l.2, c ≠ ',' ∧ c ≠ ':') :
    NewAppFromString (joinSep ',' (name :: pairs.map (fun l => l.1 ++ '=' :: l.2))) =
      .ok ⟨name, pairs⟩ := by
  have hnocolon : ∀ c ∈ joinSep ',' (name :: pairs.map (fun l => l.1 ++ '=' :: l.2)),
      c ≠ ':' := by
    intro c hc
    rcases mem_joinSep hc with rfl | ⟨p, hp, hcp⟩
    · decide
    · rcases List.mem_cons.mp hp with rfl | hp2
      · exact (validACId_no_special hn c hcp).2.2.2.2.2.2.1
      · obtain ⟨l, hl, rfl⟩ := List.mem_map.mp hp2
        rw [List.mem_append, List.mem_cons] at hcp
        rcases hcp with hcp | rfl | hcp
        · exact (validACId_no_special (hk l hl) c hcp).2.2.2.2.2.2.1
        · decide
        · exact (hv l hl c hcp).2
  rw [NewAppFromString, if_neg (by rw [colonAfterComma_of_no_colon hnocolon]; exact
      Bool.false_ne_true),
    replaceColonVersion_of_no_colon hnocolon,
    splitSepP_joinSep (by decide) ?hfree (List.cons_ne_nil _ _)]
  case hfree =>
    intro p hp c hc
    simp only [beq_eq_false_iff_ne, ne_eq]
    rcases List.mem_cons.mp hp with rfl | hp2
    · exact (validACId_no_special hn c hc).2.2.2.2.2.1
    · obtain ⟨l, hl, rfl⟩ := List.mem_map.mp hp2
      rw [List.mem_append, List.mem_cons] at hc
      rcases hc with hc | rfl | hc
      · exact (validACId_no_special (hk l hl) c hc).2.2.2.2.2.1
      · decide
      · exact (hv l hl c hc).1
  show ((List.map (fun l => l.1 ++ '=' :: l.2) pairs).mapM (fun piece =>
      match splitAtFirst '=' piece with
      | (k, some v) => Except.ok (k, v)
      | (_, none) => Except.error Err.missingLabelEq) >>= fun labels =>
      if (labels.map Prod.fst).Nodup then NewApp name labels
      else Except.error Err.dupLabel) = Except.ok ⟨name, pairs⟩
  rw [mapM_map_ok pairs _ _ id (fun l hl => by
    rw [splitAtFirst_append l.2 (fun c hc => (validACId_no_special (hk l hl) c hc).2.2.1)]
    rfl),
    bind_ok_eq]
  rw [List.map_id, if_pos hnd, NewApp,
    if_pos (by
      rw [Bool.and_eq_true, List.all_eq_true]
      exact ⟨hn, fun l hl => hk l hl⟩)]

theorem newAppc_canon (a : App)
    (hn : isValidACId a.name = true)
    (hnd : (a.labels.map Prod.fst).Nodup)
    (hk : ∀ l ∈ a.labels, isValidACId l.1 = true)
    (hv : ∀ l ∈ a.labels, ∀ c ∈ l.2, c.toNat < 256 ∧ c ≠ ',' ∧ c ≠ ':') :
    NewAppc (urlString ⟨toChars "cimd", toChars "appc:v=0:" ++ a.name,
        canonQuery a.labels⟩) =
      .ok ⟨toChars "cimd", toChars "appc:v=0:" ++ a.name, canonQuery a.labels⟩ := by
  have hop : ∀ c ∈ toChars "appc:v=0:" ++ a.name, c ≠ '?' := by
    intro c hc
    rcases List.mem_append.mp hc with hc | hc
    · have hlit : ∀ c2 ∈ toChars "appc:v=0:", c2 ≠ '?' := by decide
      exact hlit c hc
    · exact (validACId_no_special hn c hc).2.2.2.2.2.2.2
  have hcimd : ∀ c ∈ toChars "cimd", c ≠ ':' := by decide
  have hup := urlParse_urlString
    ⟨toChars "cimd", toChars "appc:v=0:" ++ a.name, canonQuery a.labels⟩ hcimd hop
  simp only [NewAppc]
  rw [hup, parseDist_canon, bind_ok_eq]
  rw [if_neg (by simp)]
  by_cases hl : a.labels = []
  · rw [hl]
    show (match NewAppFromString (a.name ++
        ((((parseQuery (canonQuery ([] : List (Str × Str)))).map Prod.fst).dedup).map
          (fun k => ',' :: k ++ '=' ::
            (queryValues (parseQuery (canonQuery ([] : List (Str × Str)))) k).headD [])).flatten)
      with
      | .error e => Except.error e
      | .ok app => Except.ok (NewAppcFromApp app)) = _
    have h5 : NewAppFromString (a.name ++
        ((((parseQuery (canonQuery ([] : List (Str × Str)))).map Prod.fst).dedup).map
          (fun k => ',' :: k ++ '=' ::
            (queryValues (parseQuery (canonQuery ([] : List (Str × Str)))) k).headD [])).flatten) =
        .ok ⟨a.name, []⟩ := by
      have h6 := newAppFromString_canon a.name [] hn
        (fun l hl2 => absurd hl2 (List.not_mem_nil l))
        (by simp)
        (fun l hl2 => absurd hl2 (List.not_mem_nil l))
      have h7 : joinSep ',' (a.name :: ([] : List (Str × Str)).map
          (fun l => l.1 ++ '=' :: l.2)) = a.name ++
        ((((parseQuery (canonQuery ([] : List (Str × Str)))).map Prod.fst).dedup).map
          (fun k => ',' :: k ++ '=' ::
            (queryValues (parseQuery (canonQuery ([] : List (Str × Str)))) k).headD [])).flatten := by
        simp [joinSep, canonQuery, parseQuery_nil]
      rw [← h7]
      exact h6
    rw [h5]
    show Except.ok (NewAppcFromApp ⟨a.name, []⟩) = _
    rw [newAppcFromApp_eq ⟨a.name, []⟩ (by simp) (fun l hl2 => absurd hl2 (List.not_mem_nil l))
      (fun l hl2 => absurd hl2 (List.not_mem_nil l))]
  · set ks : List Str := sortStrings ((a.labels.map Prod.fst).dedup) with hksdef
    set sl : List (Str × Str) := ks.map (fun k => (k, lookupD a.labels k)) with hsldef
    have hksmem : ∀ k ∈ ks, k ∈ a.labels.map Prod.fst := by
      intro k hkk
      rw [hksdef] at hkk
      exact List.mem_dedup.mp (mem_sortStrings.mp hkk)
    have hslfst : sl.map Prod.fst = ks := by
      rw [hsldef, List.map_map]
      exact List.map_id ks
    have hksnd : ks.Nodup := nodup_sortStrings (List.nodup_dedup _)
    have hslnd : (sl.map Prod.fst).Nodup := by rw [hslfst]; exact hksnd
    have hslmem : ∀ l ∈ sl, l ∈ a.labels := by
      intro l hls
      rw [hsldef] at hls
      obtain ⟨k, hkk, rfl⟩ := List.mem_map.mp hls
      exact lookupD_mem (hksmem k hkk)
    have hslk : ∀ l ∈ sl, isValidACId l.1 = true := fun l hls => hk l (hslmem l hls)
    have hslb : ∀ l ∈ sl, ∀ c ∈ l.2, c.toNat < 256 :=
      fun l hls c hc => (hv l (hslmem l hls) c hc).1
    have hslc : ∀ l ∈ sl, ∀ c ∈ l.2, c ≠ ',' ∧ c ≠ ':' :=
      fun l hls c hc => ⟨(hv l (hslmem l hls) c hc).2.1, (hv l (hslmem l hls) c hc).2.2⟩
    have hslne : sl ≠ [] := by
      obtain ⟨l0, hl0⟩ := List.exists_mem_of_ne_nil a.labels hl
      have : l0.1 ∈ ks := by
        rw [hksdef]
        exact mem_sortStrings.mpr (List.mem_dedup.mpr (List.mem_map_of_mem Prod.fst hl0))
      rw [hsldef]
      intro hcon
      rw [List.map_eq_nil] at hcon
      rw [hcon] at this
      exact List.not_mem_nil _ this
    have hcq : canonQuery a.labels =
        joinSep '&' (sl.map (fun l => l.1 ++ '=' :: QueryEscape l.2)) := by
      rw [canonQuery, if_neg hl, hsldef, List.map_map]
      rfl
    have hq : parseQuery (canonQuery a.labels) = sl := by
      rw [hcq]
      exact parseQuery_join sl hslne hslk hslb
    have hqv : ∀ k ∈ ks, (queryValues sl k).headD [] = lookupD a.labels k := by
      intro k hkk
      rw [queryValues_nodup sl hslnd k (by rw [hslfst]; exact hkk)]
      show lookupD sl k = _
      rw [hsldef]
      exact lookupD_map_self hkk
    have happc : a.name ++ (((sl.map Prod.fst).dedup).map
        (fun k => ',' :: k ++ '=' :: (queryValues sl k).headD [])).flatten =
        joinSep ',' (a.name :: sl.map (fun l => l.1 ++ '=' :: l.2)) := by
      rw [hslfst, List.Nodup.dedup hksnd]
      rw [List.map_congr_left (fun k hkk => show
          ',' :: k ++ '=' :: (queryValues sl k).headD [] =
            ',' :: (k ++ '=' :: lookupD a.labels k)
        from by rw [hqv k hkk]; rfl)]
      rw [append_flatten_joinSep a.name ks (fun k => k ++ '=' :: lookupD a.labels k)]
      congr 1
      congr 1
      rw [hsldef, List.map_map]
      rfl
    show (match NewAppFromString (a.name ++
        ((((parseQuery (canonQuery a.labels)).map Prod.fst).dedup).map
          (fun k => ',' :: k ++ '=' ::
            (queryValues (parseQuery (canonQuery a.labels)) k).headD [])).flatten)
      with
      | .error e => Except.error e
      | .ok app => Except.ok (NewAppcFromApp app)) = _
    rw [hq, happc, newAppFromString_canon a.name sl hn hslk hslnd hslc]
    show Except.ok (NewAppcFromApp ⟨a.name, sl⟩) = _
    rw [newAppcFromApp_eq ⟨a.name, sl⟩ hslnd hslk hslb]
    have hcsl : canonQuery sl = canonQuery a.labels := by
      rw [canonQuery, if_neg hslne, hslfst, List.Nodup.dedup hksnd, hksdef,
        sortStrings_idem]
      rw [canonQuery, if_neg hl]
      congr 1
      refine List.map_congr_left ?hpt2
      intro k hkk
      rw [← hksdef] at hkk
      show k ++ '=' :: QueryEscape (lookupD sl k) =
        k ++ '=' :: QueryEscape (lookupD a.labels k)
      rw [hsldef, lookupD_map_self hkk]
    rw [hcsl]

/-- C9: for every appc image name with a set of labels whose names are valid
AC identifiers without duplicates and whose values are byte strings free of
commas and colons, the canonical appc distribution URI is independent of the
order in which the labels are given — query keys are sorted lexicographically,
values are sorted within a repeated key and percent-encoded — and
canonicalization is a fixed point: parsing the canonical URI with NewAppc and
re-canonicalizing yields the byte-identical string.  (The original claim's
unrestricted fixed point fails for values containing a comma or colon.) -/
theorem C9_appc_canonicalization_amended
    (a1 a2 : App)
    (hname : a1.name = a2.name)
    (hperm : List.Perm a1.labels a2.labels)
    (hn : isValidACId a1.name = true)
    (hnd : (a1.labels.map Prod.fst).Nodup)
    (hkeys : ∀ l ∈ a1.labels, isValidACId l.1 = true)
    (hvals : ∀ l ∈ a1.labels, ∀ c ∈ l.2, c.toNat < 256 ∧ c ≠ ',' ∧ c ≠ ':') :
    ComparableURIString (NewAppcFromApp a1) = ComparableURIString (NewAppcFromApp a2) ∧
    (∃ u2, NewAppc (ComparableURIString (NewAppcFromApp a1)) = .ok u2 ∧
      ComparableURIString u2 = ComparableURIString (NewAppcFromApp a1)) := by
  have hnd2 : (a2.labels.map Prod.fst).Nodup := ((hperm.map Prod.fst).nodup_iff).mp hnd
  have hkeys2 : ∀ l ∈ a2.labels, isValidACId l.1 = true :=
    fun l hl => hkeys l (hperm.mem_iff.mpr hl)
  have hvals2 : ∀ l ∈ a2.labels, ∀ c ∈ l.2, c.toNat < 256 ∧ c ≠ ',' ∧ c ≠ ':' :=
    fun l hl => hvals l (hperm.mem_iff.mpr hl)
  have e1 := newAppcFromApp_eq a1 hnd hkeys (fun l hl c hc => (hvals l hl c hc).1)
  have e2 := newAppcFromApp_eq a2 hnd2 hkeys2 (fun l hl c hc => (hvals2 l hl c hc).1)
  constructor
  · rw [ComparableURIString, ComparableURIString, e1, e2, hname,
      canonQuery_perm hperm hnd]
  · refine ⟨⟨toChars "cimd", toChars "appc:v=0:" ++ a1.name, canonQuery a1.labels⟩,
      ?g1, ?g2⟩
    case g1 =>
      rw [ComparableURIString, e1]
      exact newAppc_canon a1 hn hnd hkeys hvals
    case g2 =>
      rw [ComparableURIString, ComparableURIString, e1]

/-- C9 counterexample: the claim's fixed point fails when a label value
contains a comma: the canonical URI percent-encodes the comma, but NewAppc
rebuilds the comma-separated discovery app string with the decoded value,
whose comma then splits off a bogus label piece without an equals sign, so
parsing the canonical URI fails instead of reproducing it. -/
theorem C9_counterexample :
    ComparableURIString (NewAppcFromApp
        ⟨toChars "ex.com/app", [(toChars "ver", toChars "a,b")]⟩) =
      toChars "cimd:appc:v=0:ex.com/app?ver=a%2Cb" ∧
    NewAppc (toChars "cimd:appc:v=0:ex.com/app?ver=a%2Cb") =
      .error .missingLabelEq := by decide

/-- Closed instance of the amended C9 canonicalization at the repository's
own test vector, with the two labels given in both orders. -/
theorem C9_witness :
    appA1.name = appA2.name ∧ List.Perm appA1.labels appA2.labels ∧
    isValidACId appA1.name = true ∧ (appA1.labels.map Prod.fst).Nodup ∧
    (∀ l ∈ appA1.labels, isValidACId l.1 = true) ∧
    (∀ l ∈ appA1.labels, ∀ c ∈ l.2, c.toNat < 256 ∧ c ≠ ',' ∧ c ≠ ':') ∧
    (ComparableURIString (NewAppcFromApp appA1) =
        ComparableURIString (NewAppcFromApp appA2) ∧
      ∃ u2, NewAppc (ComparableURIString (NewAppcFromApp appA1)) = .ok u2 ∧
        ComparableURIString u2 = ComparableURIString (NewAppcFromApp appA1)) :=
  ⟨by decide, by decide, by decide, by decide, by decide, by decide,
   C9_appc_canonicalization_amended appA1 appA2 (by decide) (by decide) (by decide)
     (by decide) (by decide) (by decide)⟩
